import Mathlib

/-!
Verification development for the helm-upgrade-preview manifest analysis
pipeline.  The Python sources under `src/helm_preview/` are shallowly
embedded: parsed YAML documents become the inductive family
`Val`/`ValList`/`ValMap` (a mutual family so that sizes and recursions stay
structural and kernel-computable), Python dictionaries become insertion
ordered key/value sequences with unique keys, and every pipeline function
(`parse_multi_doc`, `pair_resources`, `strip_noise`, `normalize_body`,
`is_semantically_equal`, `compute_diff`, `diff_all`, the risk rules and
`assess_risk`) becomes a computable Lean function mirroring the
corresponding Python function line by line.

Recursions that walk two documents simultaneously through dictionary
lookups (Python `==`, `_deep_semantic_equal`) are realised with an explicit
fuel parameter initialised to the combined node count of the two arguments;
every recursive call strictly shrinks the remaining combined node count
while fuel shrinks by one, so the fuel never runs out and the fuelled
function computes exactly the value of the Python recursion.
-/

namespace HelmPreview

mutual

/-- A parsed YAML value: Python `None`, `bool`, `int`, `float`, `str`,
`list` and `dict` (string keys, insertion ordered).  Python floats are
modelled as rationals: IEEE-754 rounding, `inf` and `nan` are outside the
model (no spec claim depends on them). -/
inductive Val where
  | null : Val
  | bool (b : Bool) : Val
  | int (n : Int) : Val
  | float (q : Rat) : Val
  | str (s : String) : Val
  | list (xs : ValList) : Val
  | map (kvs : ValMap) : Val

/-- The elements of a YAML list, as a spine of its own so that mutual
structural recursion over documents is available. -/
inductive ValList where
  | nil : ValList
  | cons (v : Val) (rest : ValList) : ValList

/-- The insertion-ordered bindings of a YAML mapping (unique keys, as in a
Python dictionary). -/
inductive ValMap where
  | nil : ValMap
  | cons (k : String) (v : Val) (rest : ValMap) : ValMap

end

/-- Build a `ValList` from an ordinary list (used to write document
literals). -/
def ValList.ofList : List Val → ValList
  | [] => ValList.nil
  | v :: rest => ValList.cons v (ValList.ofList rest)

/-- Build a `ValMap` from an ordinary association list. -/
def ValMap.ofList : List (String × Val) → ValMap
  | [] => ValMap.nil
  | (k, v) :: rest => ValMap.cons k v (ValMap.ofList rest)

/-- A YAML list literal. -/
def vlist (xs : List Val) : Val := Val.list (ValList.ofList xs)

/-- A YAML mapping literal. -/
def vmap (kvs : List (String × Val)) : Val := Val.map (ValMap.ofList kvs)

/-- The elements of a `ValList` as an ordinary list. -/
def ValList.toList : ValList → List Val
  | ValList.nil => []
  | ValList.cons v rest => v :: rest.toList

/-- The bindings of a `ValMap` as an ordinary association list. -/
def ValMap.toList : ValMap → List (String × Val)
  | ValMap.nil => []
  | ValMap.cons k v rest => (k, v) :: rest.toList

/-- The keys of a mapping, in insertion order (Python `dict.keys()`). -/
def ValMap.keys : ValMap → List String
  | ValMap.nil => []
  | ValMap.cons k _ rest => k :: rest.keys

/-- Python `dict.__getitem__` / `dict.get`: the binding of the key (first
binding if the spine ever carried duplicates; maps built by the embedding
have unique keys, as Python dictionaries do). -/
def ValMap.lookup : ValMap → String → Option Val
  | ValMap.nil, _ => none
  | ValMap.cons k v rest, key => if k == key then some v else rest.lookup key

/-- Python `dict.get(key)` with default `None`. -/
def ValMap.lookupD (m : ValMap) (key : String) : Val :=
  (m.lookup key).getD Val.null

mutual

/-- Node count of a document; used to initialise recursion fuel. -/
def Val.size : Val → Nat
  | Val.null => 1
  | Val.bool _ => 1
  | Val.int _ => 1
  | Val.float _ => 1
  | Val.str _ => 1
  | Val.list xs => 1 + xs.size
  | Val.map kvs => 1 + kvs.size

/-- Node count of a list spine. -/
def ValList.size : ValList → Nat
  | ValList.nil => 1
  | ValList.cons v rest => 1 + v.size + rest.size

/-- Node count of a mapping spine. -/
def ValMap.size : ValMap → Nat
  | ValMap.nil => 1
  | ValMap.cons _ v rest => 1 + v.size + rest.size

end

/-- Insertion-ordered key deduplication, as performed by `dict.fromkeys`
(first occurrence of each key is kept, in order). -/
def dedupKeys (ks : List String) : List String :=
  ks.foldl (fun acc k => if acc.contains k then acc else acc ++ [k]) []

mutual

/-- Fuelled embedding of Python `==` on parsed YAML values.  Numeric values
compare by value across `bool`/`int`/`float` (Python's `True == 1`,
`80 == 80.0`); dictionaries compare as key-value sets; lists compare
positionally; any other cross-type comparison is unequal. -/
def pyEqF : Nat → Val → Val → Bool
  | 0, _, _ => false
  | k + 1, a, b =>
    match a, b with
    | Val.null, Val.null => true
    | Val.bool x, Val.bool y => x == y
    | Val.bool x, Val.int n => (if x then (1 : Int) else 0) == n
    | Val.int n, Val.bool x => n == (if x then (1 : Int) else 0)
    | Val.bool x, Val.float q => (if x then (1 : Rat) else 0) == q
    | Val.float q, Val.bool x => q == (if x then (1 : Rat) else 0)
    | Val.int m, Val.int n => m == n
    | Val.int m, Val.float q => (m : Rat) == q
    | Val.float q, Val.int m => q == (m : Rat)
    | Val.float p, Val.float q => p == q
    | Val.str s, Val.str t => s == t
    | Val.list xs, Val.list ys => pyEqListF k xs ys
    | Val.map ka, Val.map kb => pyEqSubF k ka kb && pyEqSubF k kb ka
    | _, _ => false

/-- Positional list equality for `pyEqF`. -/
def pyEqListF : Nat → ValList → ValList → Bool
  | 0, _, _ => false
  | _ + 1, ValList.nil, ValList.nil => true
  | k + 1, ValList.cons x xs, ValList.cons y ys => pyEqF k x y && pyEqListF k xs ys
  | _ + 1, _, _ => false

/-- One-sided dictionary containment for `pyEqF`: every binding of the
first mapping holds (under `==`) in the second.  On unique-key mappings the
two-sided containment used by `pyEqF` coincides with Python's length check
plus one-sided value comparison. -/
def pyEqSubF : Nat → ValMap → ValMap → Bool
  | 0, _, _ => false
  | _ + 1, ValMap.nil, _ => true
  | k + 1, ValMap.cons key v rest, b =>
    (match b.lookup key with
     | some w => pyEqF k v w
     | none => false) && pyEqSubF k rest b

end

/-- Python `==` on parsed YAML values (`a == b` in the sources).  The fuel
`a.size + b.size` strictly dominates the recursion depth. -/
def pyEq (a b : Val) : Bool := pyEqF (a.size + b.size) a b

/-- Whitespace stripping from both ends of a character list (Python
`str.strip()` restricted to ASCII whitespace). -/
def stripWs (cs : List Char) : List Char :=
  ((cs.dropWhile Char.isWhitespace).reverse.dropWhile Char.isWhitespace).reverse

/-- ASCII lower-casing of one character (Python `str.lower()` restricted to
ASCII, which covers every token the sources compare against). -/
def lowerChar (c : Char) : Char :=
  if 65 ≤ c.toNat && c.toNat ≤ 90 then Char.ofNat (c.toNat + 32) else c

/-- ASCII `str.lower()`. -/
def pyLower (s : String) : String := String.mk (s.data.map lowerChar)

/-- Python `str.startswith(pre)`. -/
def strStartsWith (s pre : String) : Bool := pre.data.isPrefixOf s.data

/-- Contiguous sublist test (drives Python's `pat in s` on strings). -/
def listInfix (pat : List Char) : List Char → Bool
  | [] => pat.isPrefixOf []
  | c :: rest => pat.isPrefixOf (c :: rest) || listInfix pat rest

/-- Python `pat in s` on strings. -/
def strContainsSub (s pat : String) : Bool := listInfix pat.data s.data

/-- Lexicographic code-point comparison (Python `str.__le__`), as used by
`sorted` on mapping keys. -/
def strLeB : List Char → List Char → Bool
  | [], _ => true
  | _ :: _, [] => false
  | a :: as_, b :: bs =>
    if a.toNat < b.toNat then true
    else if b.toNat < a.toNat then false
    else strLeB as_ bs

/-- `_coerce_numeric`, integer branch: Python `int(s)` restricted to an
optional sign followed by decimal digits, surrounding whitespace stripped
(underscore grouping and non-ASCII digits are outside the model). -/
def digitsToNat? (ds : List Char) : Option Nat :=
  if ds ≠ [] && ds.all Char.isDigit then
    some (ds.foldl (fun acc c => acc * 10 + (c.toNat - 48)) 0)
  else none

/-- Python `int(s)` (as used by `_coerce_numeric`): `none` models the
`ValueError` branch. -/
def parseIntPy (s : String) : Option Int :=
  match stripWs s.data with
  | [] => none
  | c :: rest =>
    if c == Char.ofNat 43 then (digitsToNat? rest).map Int.ofNat
    else if c == Char.ofNat 45 then (digitsToNat? rest).map (fun n => -(n : Int))
    else (digitsToNat? (c :: rest)).map Int.ofNat

/-- Mantissa and optional exponent of a float literal; value =
(intPart.fracPart) × 10^exp. -/
def parseMantissa? (cs : List Char) : Option Rat :=
  let ip := cs.takeWhile Char.isDigit
  let rest := cs.dropWhile Char.isDigit
  match rest with
  | [] => if ip ≠ [] then (digitsToNat? ip).map (fun n => (n : Rat)) else none
  | c :: fp =>
    if c == Char.ofNat 46 then
      if (ip ≠ [] || fp ≠ []) && fp.all Char.isDigit then
        some ((((ip.foldl (fun acc d => acc * 10 + (d.toNat - 48)) 0 : Nat) : Rat) * (10 : Rat) ^ fp.length
          + ((fp.foldl (fun acc d => acc * 10 + (d.toNat - 48)) 0 : Nat) : Rat)) / (10 : Rat) ^ fp.length)
      else none
    else none

/-- Signed decimal integer (exponent field of a float literal). -/
def parseSignedInt? (cs : List Char) : Option Int :=
  match cs with
  | [] => none
  | c :: rest =>
    if c == Char.ofNat 43 then (digitsToNat? rest).map Int.ofNat
    else if c == Char.ofNat 45 then (digitsToNat? rest).map (fun n => -(n : Int))
    else (digitsToNat? (c :: rest)).map Int.ofNat

/-- Python `float(s)` (as used by `_coerce_numeric`), modelled exactly for
finite decimal literals with optional sign, fraction and exponent;
`inf`/`nan`/hex forms are outside the model.  `none` models `ValueError`. -/
def parseFloatPy (s : String) : Option Rat :=
  let t := stripWs s.data
  let signed : Bool × List Char :=
    match t with
    | c :: rest =>
      if c == Char.ofNat 45 then (true, rest)
      else if c == Char.ofNat 43 then (false, rest) else (false, t)
    | [] => (false, [])
  let body := signed.2
  let mant := body.takeWhile (fun c => c != Char.ofNat 101 && c != Char.ofNat 69)
  let rest := body.dropWhile (fun c => c != Char.ofNat 101 && c != Char.ofNat 69)
  let mag : Option Rat :=
    match rest with
    | [] => parseMantissa? mant
    | _ :: expPart =>
      match parseMantissa? mant, parseSignedInt? expPart with
      | some m, some e =>
        some (if 0 ≤ e then m * (10 : Rat) ^ e.toNat else m / (10 : Rat) ^ (-e).toNat)
      | _, _ => none
  mag.map (fun m => if signed.1 then -m else m)

/-- `_coerce_numeric`: ints and floats (but not bools) pass through; a
string is tried as an int and then as a float; everything else is `None`.
The int/float distinction is collapsed to `Rat` because the only use of the
returned value is a Python `==` comparison, which is numeric across
int/float. -/
def coerceNumeric : Val → Option Rat
  | Val.int n => some (n : Rat)
  | Val.float q => some q
  | Val.bool _ => none
  | Val.str s =>
    (match parseIntPy s with
     | some n => some (n : Rat)
     | none => parseFloatPy s)
  | _ => none

/-- `_BOOL_MAP` applied to a lower-cased string. -/
def boolTokenMap (s : String) : Option Bool :=
  if s == "true" || s == "yes" then some true
  else if s == "false" || s == "no" then some false
  else none

/-- `_coerce_bool`: bools pass through; a string maps through `_BOOL_MAP`
on its lower-cased form; everything else is `None`. -/
def coerceBool : Val → Option Bool
  | Val.bool b => some b
  | Val.str s => boolTokenMap (pyLower s)
  | _ => none

mutual

/-- Fuelled embedding of `_deep_semantic_equal`: direct Python equality,
then numeric coercion, then boolean coercion, then key-union dictionary
recursion (absent keys read as `None`), then positional list recursion,
else unequal.  The iteration order of Python's key-union set is
irrelevant: the loop computes a pure conjunction. -/
def deepSemanticEqualF : Nat → Val → Val → Bool
  | 0, _, _ => false
  | k + 1, a, b =>
    if pyEq a b then true
    else
      match coerceNumeric a, coerceNumeric b with
      | some x, some y => x == y
      | _, _ =>
        match coerceBool a, coerceBool b with
        | some x, some y => x == y
        | _, _ =>
          match a, b with
          | Val.map ka, Val.map kb =>
            (dedupKeys (ka.keys ++ kb.keys)).all
              (fun key => deepSemanticEqualF k (ka.lookupD key) (kb.lookupD key))
          | Val.list xs, Val.list ys => deepSemanticEqualListF k xs ys
          | _, _ => false

/-- Positional list recursion of `_deep_semantic_equal` (same length and
element-wise recursively equal). -/
def deepSemanticEqualListF : Nat → ValList → ValList → Bool
  | 0, _, _ => false
  | _ + 1, ValList.nil, ValList.nil => true
  | k + 1, ValList.cons x xs, ValList.cons y ys =>
    deepSemanticEqualF k x y && deepSemanticEqualListF k xs ys
  | _ + 1, _, _ => false

end

/-- `is_semantically_equal(old, new)`: the gate run on normalized bodies.
The fuel `old.size + new.size` strictly dominates the recursion depth. -/
def is_semantically_equal (old new : Val) : Bool :=
  deepSemanticEqualF (old.size + new.size) old new

/-- `_split_dot_path`: split on dots not preceded by a backslash, then
unescape `\.` to a literal dot, in a single left-to-right pass. -/
def splitDotPathAux : List Char → List Char → List String
  | [], cur => [String.mk cur.reverse]
  | [c], cur =>
    if c == Char.ofNat 46 then [String.mk cur.reverse, ""]
    else [String.mk (c :: cur).reverse]
  | c :: d :: rest, cur =>
    if c == Char.ofNat 46 then String.mk cur.reverse :: splitDotPathAux (d :: rest) []
    else if c == Char.ofNat 92 && d == Char.ofNat 46 then splitDotPathAux rest (d :: cur)
    else splitDotPathAux (d :: rest) (c :: cur)

/-- `_split_dot_path` on a string. -/
def splitDotPath (s : String) : List String := splitDotPathAux s.data []

/-- Python `str.split(".")` (used for the normalizer's path patterns,
which carry no escapes). -/
def splitOnDotAux : List Char → List Char → List String
  | [], cur => [String.mk cur.reverse]
  | c :: rest, cur =>
    if c == Char.ofNat 46 then String.mk cur.reverse :: splitOnDotAux rest []
    else splitOnDotAux rest (c :: cur)

/-- Python `str.split(".")` on a string. -/
def splitOnDot (s : String) : List String := splitOnDotAux s.data []

/-- The `'*' in key or '?' in key or '[' in key` test selecting glob
matching for a leaf segment. -/
def isGlobPattern (key : String) : Bool :=
  key.data.any (fun c => c == '*' || c == '?' || c == '[')

/-- Fuelled `fnmatch.fnmatch` restricted to the `*` and `?` wildcards
(character classes never occur in the configured noise paths and are
outside the model); matching is case-sensitive as on POSIX. -/
def globMatchF : Nat → List Char → List Char → Bool
  | 0, p, c => p.isEmpty && c.isEmpty
  | k + 1, p, cs =>
    match p with
    | [] => cs.isEmpty
    | pc :: ps =>
      if pc == Char.ofNat 42 then
        globMatchF k ps cs ||
          (match cs with
           | [] => false
           | _ :: cs2 => globMatchF k (pc :: ps) cs2)
      else
        match cs with
        | [] => false
        | c :: cs2 => (pc == Char.ofNat 63 || pc == c) && globMatchF k ps cs2

/-- `fnmatch.fnmatch(name, pat)`.  Every recursive call of `globMatchF`
shrinks the combined length, so this fuel is adequate. -/
def globMatch (pat name : List Char) : Bool :=
  globMatchF (pat.length + name.length + 1) pat name

/-- `del obj[key]` (drops the binding of the key, preserving the order of
the others). -/
def ValMap.removeKey : ValMap → String → ValMap
  | ValMap.nil, _ => ValMap.nil
  | ValMap.cons k v rest, key =>
    if k == key then rest.removeKey key else ValMap.cons k v (rest.removeKey key)

/-- The glob branch of `_remove_path_parts`: delete every binding whose key
matches the pattern. -/
def ValMap.removeGlob : ValMap → String → ValMap
  | ValMap.nil, _ => ValMap.nil
  | ValMap.cons k v rest, pat =>
    if globMatch pat.data k.data then rest.removeGlob pat
    else ValMap.cons k v (rest.removeGlob pat)

/-- Replace the value bound to `key` by `f` of it (Python's in-place
`obj[key] = ...` on the unique binding). -/
def ValMap.modifyAt (m : ValMap) (key : String) (f : Val → Val) : ValMap :=
  match m with
  | ValMap.nil => ValMap.nil
  | ValMap.cons k v rest =>
    if k == key then ValMap.cons k (f v) (rest.modifyAt key f)
    else ValMap.cons k v (rest.modifyAt key f)

mutual

/-- Fuelled `_remove_path_parts`: walk into nested mappings along the
path; at the final segment delete the matching key(s) (glob-aware);
non-mapping nodes and absent keys end the walk.  The fuel keeps the
mapping-spine walk structural; it is initialised above any possible walk
length. -/
def removePathPartsF : Nat → List String → Val → Val
  | 0, _, v => v
  | _ + 1, [], v => v
  | _ + 1, [key], Val.map kvs =>
    if isGlobPattern key then Val.map (kvs.removeGlob key)
    else Val.map (kvs.removeKey key)
  | k + 1, key :: restParts, Val.map kvs => Val.map (removeInMapF k key restParts kvs)
  | _ + 1, _, v => v

/-- Spine walk for `removePathPartsF`: recurse into the value bound to
`key` when it is a mapping (Python's `isinstance(obj[key], dict)` guard),
leave everything else untouched. -/
def removeInMapF : Nat → String → List String → ValMap → ValMap
  | 0, _, _, m => m
  | _ + 1, _, _, ValMap.nil => ValMap.nil
  | k + 1, key, restParts, ValMap.cons k2 v rest =>
    if k2 == key then
      ValMap.cons k2
        (match v with
         | Val.map _ => removePathPartsF k restParts v
         | _ => v)
        (removeInMapF k key restParts rest)
    else ValMap.cons k2 v (removeInMapF k key restParts rest)

end

/-- `_remove_path_parts(obj, parts)` (pure: returns the updated document).
Each recursive call shrinks `parts.length` plus the remaining spine, so
the fuel is adequate. -/
def removePathParts (parts : List String) (v : Val) : Val :=
  removePathPartsF (parts.length + v.size + 1) parts v

/-- `NOISE_PATHS` from `config.py`, in source order.  Python iterates the
set in an arbitrary order, but the removals delete disjoint bindings and
are idempotent, so any order and any duplication produce the same body. -/
def NOISE_PATHS : List String := [
  "metadata.creationTimestamp",
  "metadata.resourceVersion",
  "metadata.uid",
  "metadata.generation",
  "metadata.managedFields",
  "metadata.annotations.meta\\.helm\\.sh/*",
  "metadata.annotations.kubectl\\.kubernetes\\.io/last-applied-configuration",
  "metadata.labels.helm\\.sh/chart",
  "status"]

/-- `strip_noise(body, extra_ignores)`: deep-copies (implicit here — the
embedding is pure) and removes every configured path; caller-supplied
extra paths are unioned with the defaults. -/
def strip_noise (body : Val) (extraIgnores : List String) : Val :=
  (NOISE_PATHS ++ extraIgnores).foldl
    (fun acc path => removePathParts (splitDotPath path) acc) body

/-- Stable insertion step: place `a` before the first element it compares
`le` to. -/
def ordInsertBy (le : α → α → Bool) (a : α) : List α → List α
  | [] => [a]
  | b :: l => if le a b then a :: b :: l else b :: ordInsertBy le a l

/-- Stable insertion sort.  Python's `sorted` is also stable, and two
stable sorts agree on every list ordered by a total preorder, so this
computes exactly `sorted(l, key=...)`. -/
def insSortBy (le : α → α → Bool) : List α → List α
  | [] => []
  | a :: l => ordInsertBy le a (insSortBy le l)

mutual

/-- `_sort_keys_recursive`: rebuild every mapping with its keys in
lexicographic order (Python `sorted(obj.items())` compares keys first and
keys are unique, so only the key ordering matters), recursing into values
and list elements. -/
def sortKeysRecursive : Val → Val
  | Val.map kvs =>
    Val.map (ValMap.ofList
      (insSortBy (fun p q => strLeB p.1.data q.1.data) (sortKeysPairs kvs)))
  | Val.list xs => Val.list (sortKeysList xs)
  | v => v

/-- Recurse into each value of a mapping spine. -/
def sortKeysPairs : ValMap → List (String × Val)
  | ValMap.nil => []
  | ValMap.cons k v rest => (k, sortKeysRecursive v) :: sortKeysPairs rest

/-- Recurse into each element of a list spine. -/
def sortKeysList : ValList → ValList
  | ValList.nil => ValList.nil
  | ValList.cons v rest => ValList.cons (sortKeysRecursive v) (sortKeysList rest)

end

/-- The sort key of one list element: `item.get(sort_key, "")` for
mappings, `""` otherwise. -/
def sortKeyOf (sk : String) (item : Val) : Val :=
  match item with
  | Val.map kvs => (kvs.lookup sk).getD (Val.str "")
  | _ => Val.str ""

/-- A sort key usable as a Python string. -/
def valKeyStr? : Val → Option String
  | Val.str s => some s
  | _ => none

/-- A sort key usable as a Python number (bools order as 0/1, as in
Python). -/
def valKeyNum? : Val → Option Rat
  | Val.int n => some (n : Rat)
  | Val.float q => some q
  | Val.bool b => some (if b then 1 else 0)
  | _ => none

/-- The `sorted(obj[key], key=...)` call of `_sort_list_at_path`, wrapped
in `try/except (TypeError, AttributeError)`: all-string keys sort
lexicographically, all-numeric keys sort by value, and any other key
combination raises in Python and leaves the list unsorted (single-element
lists compare nothing and are returned unchanged either way). -/
def sortIfList (sk : String) (v : Val) : Val :=
  match v with
  | Val.list xs =>
    let items := xs.toList
    let keys := items.map (sortKeyOf sk)
    if keys.all (fun kv => (valKeyStr? kv).isSome) then
      Val.list (ValList.ofList (insSortBy
        (fun a b => strLeB ((valKeyStr? (sortKeyOf sk a)).getD "").data
          ((valKeyStr? (sortKeyOf sk b)).getD "").data) items))
    else if keys.all (fun kv => (valKeyNum? kv).isSome) then
      Val.list (ValList.ofList (insSortBy
        (fun a b => decide (((valKeyNum? (sortKeyOf sk a)).getD 0)
          ≤ ((valKeyNum? (sortKeyOf sk b)).getD 0))) items))
    else v
  | _ => v

mutual

/-- Fuelled `_sort_list_at_path`: walk the dotted pattern through nested
mappings; a `*` segment over a list walks every element; at the final
segment sort the addressed list (if it is one) by the configured key. -/
def sortListAtPathF : Nat → List String → String → Val → Val
  | 0, _, _, v => v
  | _ + 1, [], _, v => v
  | _ + 1, [key], sk, Val.map kvs => Val.map (kvs.modifyAt key (sortIfList sk))
  | k + 1, key :: restParts, sk, Val.map kvs =>
    Val.map (sortInMapF k key restParts sk kvs)
  | k + 1, star :: restParts, sk, Val.list xs =>
    if star == "*" then
      if restParts.isEmpty then Val.list xs
      else Val.list (sortInListF k restParts sk xs)
    else Val.list xs
  | _ + 1, _, _, v => v

/-- Spine walk for `sortListAtPathF`: recurse into the value bound to the
current segment. -/
def sortInMapF : Nat → String → List String → String → ValMap → ValMap
  | 0, _, _, _, m => m
  | _ + 1, _, _, _, ValMap.nil => ValMap.nil
  | k + 1, key, restParts, sk, ValMap.cons k2 v rest =>
    if k2 == key then
      ValMap.cons k2 (sortListAtPathF k restParts sk v) (sortInMapF k key restParts sk rest)
    else ValMap.cons k2 v (sortInMapF k key restParts sk rest)

/-- `*` walk for `sortListAtPathF`: recurse into every list element. -/
def sortInListF : Nat → List String → String → ValList → ValList
  | 0, _, _, l => l
  | _ + 1, _, _, ValList.nil => ValList.nil
  | k + 1, restParts, sk, ValList.cons v rest =>
    ValList.cons (sortListAtPathF k restParts sk v) (sortInListF k restParts sk rest)

end

/-- `_sort_list_at_path(obj, parts, sort_key)` (pure).  Each recursive
call shrinks `parts.length` plus the remaining spine, so the fuel is
adequate. -/
def sortListAtPath (parts : List String) (sk : String) (v : Val) : Val :=
  sortListAtPathF (parts.length + v.size + 1) parts sk v

/-- `UNORDERED_LIST_SORT_KEYS` from `config.py`, in source (insertion)
order, which is the order Python iterates `dict.items()`. -/
def UNORDERED_LIST_SORT_KEYS : List (String × String) := [
  ("spec.template.spec.containers.*.env", "name"),
  ("spec.template.spec.containers.*.ports", "containerPort"),
  ("spec.template.spec.containers.*.volumeMounts", "mountPath"),
  ("spec.template.spec.volumes", "name"),
  ("spec.template.spec.initContainers.*.env", "name"),
  ("spec.template.spec.initContainers.*.ports", "containerPort"),
  ("spec.ports", "port")]

/-- `normalize_body`: recursively sort mapping keys, then sort each
configured semantically-unordered list by its configured key. -/
def normalize_body (body : Val) : Val :=
  UNORDERED_LIST_SORT_KEYS.foldl
    (fun acc p => sortListAtPath (splitOnDot p.1) p.2 acc)
    (sortKeysRecursive body)

/-- The status tag of a `ResourcePair` / `ChangeRecord`. -/
inductive PStatus where
  | added : PStatus
  | removed : PStatus
  | changed : PStatus
  | unchanged : PStatus
deriving DecidableEq, BEq

/-- One parsed manifest document (`Resource` dataclass).  The identity
fields carry the dataclass's `str` annotations; the original raw text is
abstracted (no claim inspects it). -/
structure Resource where
  api_version : String
  kind : String
  namespc : String
  name : String
  body : Val
  raw : String

/-- `Resource.key`: the f-string `apiVersion/kind/namespace/name`. -/
def Resource.key (r : Resource) : String :=
  r.api_version ++ "/" ++ r.kind ++ "/" ++ r.namespc ++ "/" ++ r.name

/-- `ResourcePair` dataclass. -/
structure ResourcePair where
  old : Option Resource
  new : Option Resource
  status : PStatus

/-- The outcome of `yaml.safe_load` on one raw document split off by
`_split_raw_docs`: blank after stripping, a `yaml.YAMLError`, or a parsed
value.  The text-level splitting and the YAML library itself are the
abstraction boundary of the embedding. -/
inductive DocResult where
  | empty : DocResult
  | err : DocResult
  | ok (v : Val) : DocResult

/-- The per-document body of `parse_multi_doc`: keep a parsed mapping that
has both an `apiVersion` and a `kind` binding, reading the namespace/name
defaults from `metadata`.  Python would store non-string identity fields
as-is and would raise `AttributeError` on a non-mapping `metadata`; the
embedding returns `none` in those corners and the production theorems
carry string-typedness hypotheses instead. -/
def docResource (defaultNamespace : String) (v : Val) : Option Resource :=
  match v with
  | Val.map kvs =>
    match kvs.lookup "apiVersion", kvs.lookup "kind" with
    | some av, some kd =>
      match av, kd with
      | Val.str avs, Val.str kds =>
        match (kvs.lookup "metadata").getD (Val.map ValMap.nil) with
        | Val.map mkvs =>
          match (mkvs.lookup "namespace").getD (Val.str defaultNamespace),
                (mkvs.lookup "name").getD (Val.str "") with
          | Val.str ns, Val.str nm =>
            some ⟨avs, kds, ns, nm, Val.map kvs, ""⟩
          | _, _ => none
        | _ => none
      | _, _ => none
    | _, _ => none
  | _ => none

/-- `parse_multi_doc`: skip blank documents, skip parse failures, skip
non-mapping documents and mappings lacking `apiVersion` or `kind`; keep
everything else, in document order. -/
def parse_multi_doc (defaultNamespace : String) (docs : List DocResult) : List Resource :=
  docs.filterMap (fun d =>
    match d with
    | DocResult.empty => none
    | DocResult.err => none
    | DocResult.ok v => docResource defaultNamespace v)

/-- Python dictionary insertion for `{r.key: r for r in rs}`: an existing
key keeps its position and takes the new value; a new key is appended. -/
def dictInsert (m : List (String × Resource)) (k : String) (r : Resource) :
    List (String × Resource) :=
  if m.any (fun p => p.1 == k) then m.map (fun p => if p.1 == k then (k, r) else p)
  else m ++ [(k, r)]

/-- The comprehension `{r.key: r for r in rs}` (insertion-ordered, last
occurrence wins on duplicate keys). -/
def buildMap (rs : List Resource) : List (String × Resource) :=
  rs.foldl (fun m r => dictInsert m r.key r) []

/-- `dict.keys()` of a built map, in insertion order. -/
def dictKeys (m : List (String × Resource)) : List String := m.map Prod.fst

/-- `dict.get(k)` of a built map. -/
def dictGet? (m : List (String × Resource)) (k : String) : Option Resource :=
  (m.find? (fun p => p.1 == k)).map Prod.snd

/-- The status cascade of `pair_resources`: old side absent ⇒ added, new
side absent ⇒ removed, bodies `==` ⇒ unchanged, else changed. -/
def pairStatus (o n : Option Resource) : PStatus :=
  match o, n with
  | none, _ => PStatus.added
  | some _, none => PStatus.removed
  | some ro, some rn => if pyEq ro.body rn.body then PStatus.unchanged else PStatus.changed

/-- `pair_resources(old, new)`: one pair per key of
`dict.fromkeys(list(old_map) + list(new_map))`. -/
def pair_resources (old new : List Resource) : List ResourcePair :=
  let oldMap := buildMap old
  let newMap := buildMap new
  let allKeys := dedupKeys (dictKeys oldMap ++ dictKeys newMap)
  allKeys.map (fun k =>
    ⟨dictGet? oldMap k, dictGet? newMap k,
     pairStatus (dictGet? oldMap k) (dictGet? newMap k)⟩)

/-- The identity key a `ResourcePair` stands for (spec side): the key of
whichever resource is present. -/
def ResourcePair.rkey (p : ResourcePair) : String :=
  match p.old with
  | some r => r.key
  | none =>
    match p.new with
    | some r => r.key
    | none => ""

/-- `FieldChange` dataclass.  Python's `None` (used by DeepDiff for the
absent side of added/removed items) is encoded as `Val.null`. -/
structure FieldChange where
  path : String
  old_value : Val
  new_value : Val
  change_type : String

/-- `ChangeRecord` dataclass. -/
structure ChangeRecord where
  resource_key : String
  kind : String
  name : String
  namespc : String
  status : PStatus
  changes : List FieldChange

/-- `compute_diff(pair, show_all, extra_ignores)`.  The parameter `dd`
abstracts the third-party call `DeepDiff(old, new, verbose_level=2)`
composed with `_extract_changes` — library code outside this repository;
every claim settled here holds for every `dd`.  The `assert` statements of
the source make the `none` fallbacks unreachable for pairs built by
`pair_resources`. -/
def compute_diff (dd : Val → Val → List FieldChange) (pair : ResourcePair)
    (showAll : Bool) (extraIgnores : List String) : Option ChangeRecord :=
  match pair.status with
  | PStatus.unchanged => none
  | PStatus.added =>
    match pair.new with
    | some res => some ⟨res.key, res.kind, res.name, res.namespc, PStatus.added, []⟩
    | none => none
  | PStatus.removed =>
    match pair.old with
    | some res => some ⟨res.key, res.kind, res.name, res.namespc, PStatus.removed, []⟩
    | none => none
  | PStatus.changed =>
    match pair.old, pair.new with
    | some o, some n =>
      let oldStripped := if showAll then o.body else strip_noise o.body extraIgnores
      let newStripped := if showAll then n.body else strip_noise n.body extraIgnores
      let oldNorm := normalize_body oldStripped
      let newNorm := normalize_body newStripped
      if is_semantically_equal oldNorm newNorm then none
      else
        let changes := dd oldNorm newNorm
        if changes.isEmpty then none
        else some ⟨o.key, o.kind, o.name, o.namespc, PStatus.changed, changes⟩
    | _, _ => none

/-- `diff_all`: compute per-pair diffs and drop the `None` results. -/
def diff_all (dd : Val → Val → List FieldChange) (pairs : List ResourcePair)
    (showAll : Bool) (extraIgnores : List String) : List ChangeRecord :=
  pairs.filterMap (fun pair => compute_diff dd pair showAll extraIgnores)

/-- `total_unchanged` from `cli.py` line 115:
`sum(1 for p in pairs if p.status == "unchanged")`. -/
def total_unchanged (pairs : List ResourcePair) : Nat :=
  (pairs.filter (fun p => p.status == PStatus.unchanged)).length

/-- A single-quote or double-quote character (`inner.startswith("'") or
inner.startswith('"')` and the `strip("'\"")` character set). -/
def isQuoteChar (c : Char) : Bool := c == Char.ofNat 39 || c == Char.ofNat 34

/-- Python `inner.strip("'\"")`: strip quote characters from both ends. -/
def stripQuotes (cs : List Char) : List Char :=
  ((cs.dropWhile isQuoteChar).reverse.dropWhile isQuoteChar).reverse

/-- Emit one bracketed segment of a DeepDiff path: a quoted segment is a
mapping key joined with `.` (no dot when the result is still empty); an
unquoted segment is a list index re-emitted as `[inner]`. -/
def emitSeg (acc : String) (buf : List Char) : String :=
  match buf with
  | c :: _ =>
    if isQuoteChar c then
      let key := String.mk (stripQuotes buf)
      if acc == "" then key else acc ++ "." ++ key
    else acc ++ "[" ++ String.mk buf ++ "]"
  | [] => acc ++ "[" ++ "]"

/-- The scanning loop of `_deepdiff_path_to_dot`: characters outside
brackets are skipped, a `[` opens a segment buffer, the next `]` closes it
and emits.  (A dangling unclosed bracket would raise `ValueError` in
Python via `path.index`; here it is dropped — the path grammar theorems
assume well-formed inputs.) -/
def convertAux : List Char → Option (List Char) → String → String
  | [], _, acc => acc
  | c :: rest, none, acc =>
    if c == '[' then convertAux rest (some []) acc else convertAux rest none acc
  | c :: rest, some buf, acc =>
    if c == ']' then convertAux rest none (emitSeg acc buf)
    else convertAux rest (some (buf ++ [c])) acc

/-- Python `path.replace("root", "", 1)`: remove the first occurrence of
the pattern. -/
def removeFirstOcc (pat : List Char) : List Char → List Char
  | [] => []
  | c :: rest =>
    if pat.isPrefixOf (c :: rest) then (c :: rest).drop pat.length
    else c :: removeFirstOcc pat rest

/-- `_deepdiff_path_to_dot`. -/
def deepdiff_path_to_dot (path : String) : String :=
  convertAux (removeFirstOcc "root".data path.data) none ""

/-- `RiskLevel` enum.  The spec's severities `safe < warning < danger`. -/
inductive RiskLevel where
  | safe : RiskLevel
  | warning : RiskLevel
  | danger : RiskLevel
deriving DecidableEq

/-- `RiskAnnotation` dataclass. -/
structure RiskAnnotation where
  level : RiskLevel
  rule : String
  message : String
  path : String

/-- `IMMUTABLE_FIELDS` from `config.py` as the lookup
`IMMUTABLE_FIELDS.get(kind_lower, [])`. -/
def IMMUTABLE_FIELDS (kindLower : String) : List String :=
  if kindLower = "deployment" then ["spec.selector.matchLabels"]
  else if kindLower = "service" then ["spec.clusterIP"]
  else if kindLower = "persistentvolumeclaim" then ["spec.storageClassName"]
  else if kindLower = "job" then ["spec.selector"]
  else if kindLower = "statefulset" then ["spec.volumeClaimTemplates"]
  else []

/-- Python `str()` on a value as interpolated by the rules' f-strings.
Scalars are rendered exactly; container and float repr details are
abstracted (no theorem inspects a message). -/
def pyStr : Val → String
  | Val.null => "None"
  | Val.bool true => "True"
  | Val.bool false => "False"
  | Val.int n => toString n
  | Val.float q => toString q
  | Val.str s => s
  | Val.list _ => "<list>"
  | Val.map _ => "<dict>"

/-- A single-quote character as a string (for f-string fidelity in rule
messages). -/
def sQuote : String := String.mk [Char.ofNat 39]

/-- `check_immutable_fields`: for each field change and each configured
immutable path of the (lower-cased) kind, a raw `startswith` match yields
a danger annotation. -/
def check_immutable_fields (c : ChangeRecord) : List RiskAnnotation :=
  c.changes.flatMap (fun fc =>
    (IMMUTABLE_FIELDS (pyLower c.kind)).filterMap (fun immPath =>
      if strStartsWith fc.path immPath then
        some ⟨RiskLevel.danger, "immutable_field",
          "Immutable field " ++ sQuote ++ fc.path ++ sQuote ++ " changed on "
            ++ c.kind ++ "/" ++ c.name, fc.path⟩
      else none))

/-- `check_service_type_change`: only for kind `Service`; each change at
exactly `spec.type` yields one annotation, danger when moving from
`ClusterIP` to `NodePort`/`LoadBalancer`, warning otherwise. -/
def check_service_type_change (c : ChangeRecord) : List RiskAnnotation :=
  if c.kind = "Service" then
    c.changes.filterMap (fun fc =>
      if fc.path = "spec.type" then
        some ⟨(if pyEq fc.old_value (Val.str "ClusterIP")
                 && (pyEq fc.new_value (Val.str "NodePort")
                   || pyEq fc.new_value (Val.str "LoadBalancer"))
               then RiskLevel.danger else RiskLevel.warning),
          "service_type_change",
          "Service type changed from " ++ pyStr fc.old_value ++ " to "
            ++ pyStr fc.new_value, fc.path⟩
      else none)
  else []

/-- `check_pvc_changes`: only for kind `PersistentVolumeClaim`; a path
containing both `storage` and `requests` as substrings yields a warning,
and exactly `spec.storageClassName` yields a danger, in that order per
field change. -/
def check_pvc_changes (c : ChangeRecord) : List RiskAnnotation :=
  if c.kind = "PersistentVolumeClaim" then
    c.changes.flatMap (fun fc =>
      (if strContainsSub fc.path "storage" && strContainsSub fc.path "requests" then
        [⟨RiskLevel.warning, "pvc_storage_change",
          "PVC storage request changed from " ++ pyStr fc.old_value ++ " to "
            ++ pyStr fc.new_value, fc.path⟩]
      else []) ++
      (if fc.path = "spec.storageClassName" then
        [⟨RiskLevel.danger, "pvc_storage_class_change",
          "PVC storageClassName changed from " ++ pyStr fc.old_value ++ " to "
            ++ pyStr fc.new_value, fc.path⟩]
      else []))
  else []

/-- `check_resource_deletion`: any removed record gets one warning. -/
def check_resource_deletion (c : ChangeRecord) : List RiskAnnotation :=
  if c.status = PStatus.removed then
    [⟨RiskLevel.warning, "resource_deleted",
      c.kind ++ "/" ++ c.name ++ " will be removed", ""⟩]
  else []

/-- The `danger_prefixes` tuple of `check_crd_changes`. -/
def CRD_DANGER_PATHS : List String :=
  ["spec.scope", "spec.versions", "spec.validation", "spec.names"]

/-- `check_crd_changes`: only for kind `CustomResourceDefinition`; a path
starting with any danger path yields one danger annotation (the source's
`break` caps it at one per field change, which `any` reproduces). -/
def check_crd_changes (c : ChangeRecord) : List RiskAnnotation :=
  if c.kind = "CustomResourceDefinition" then
    c.changes.flatMap (fun fc =>
      if CRD_DANGER_PATHS.any (fun p => strStartsWith fc.path p) then
        [⟨RiskLevel.danger, "crd_spec_change",
          "CRD spec change at " ++ sQuote ++ fc.path ++ sQuote ++ " on " ++ c.name,
          fc.path⟩]
      else [])
  else []

/-- `check_rbac_escalation`: only for kinds `ClusterRole`/`Role`; a path
starting with `rules` yields one warning annotation. -/
def check_rbac_escalation (c : ChangeRecord) : List RiskAnnotation :=
  if c.kind = "ClusterRole" || c.kind = "Role" then
    c.changes.filterMap (fun fc =>
      if strStartsWith fc.path "rules" then
        some ⟨RiskLevel.warning, "rbac_change",
          "RBAC rules changed at " ++ sQuote ++ fc.path ++ sQuote ++ " on "
            ++ c.kind ++ "/" ++ c.name, fc.path⟩
      else none)
  else []

/-- One record through the `RISK_RULES` registry, concatenating rule
outputs in registration order. -/
def assessRecordAnnotations (c : ChangeRecord) : List RiskAnnotation :=
  check_immutable_fields c ++ check_service_type_change c ++ check_pvc_changes c
    ++ check_resource_deletion c ++ check_crd_changes c ++ check_rbac_escalation c

/-- `assess_risk`: every rule against every record, annotations attached
per record. -/
def assess_risk (changes : List ChangeRecord) :
    List (ChangeRecord × List RiskAnnotation) :=
  changes.map (fun c => (c, assessRecordAnnotations c))

/-- Spec-side (§4.5): the abstract segments of a DeepDiff path — a quoted
mapping key or a decimal list index. -/
inductive Seg where
  | key (k : String) : Seg
  | idx (d : String) : Seg

/-- One DeepDiff path segment as DeepDiff renders it (`['k']` or `[i]`). -/
def renderSeg : Seg → String
  | Seg.key k => "[" ++ sQuote ++ k ++ sQuote ++ "]"
  | Seg.idx d => "[" ++ d ++ "]"

/-- Concatenated segment renderings. -/
def joinSegs : List Seg → String
  | [] => ""
  | s :: rest => renderSeg s ++ joinSegs rest

/-- A DeepDiff-style path: `root` followed by bracketed segments. -/
def buildDeepDiffPath (segs : List Seg) : String :=
  "root" ++ joinSegs segs

/-- Spec-side path grammar (§4.5), one step: mapping keys joined with `.`
(no leading dot when nothing precedes), list indices appended as `[i]`
with no separating dot. -/
def dotStep (acc : String) : Seg → String
  | Seg.key k => if acc == "" then k else acc ++ "." ++ k
  | Seg.idx d => acc ++ "[" ++ d ++ "]"

/-- Spec-side path grammar over a whole segment list. -/
def dotRender (segs : List Seg) : String := segs.foldl dotStep ""

/-- Well-formed segments: keys are nonempty and free of quote characters
and `]` (DeepDiff quotes such keys differently); indices are decimal
digit strings. -/
def SegWF : Seg → Prop
  | Seg.key k => k ≠ "" ∧ k.data.all (fun c => !(isQuoteChar c) && c != ']') = true
  | Seg.idx d => d.data.all Char.isDigit = true

end HelmPreview

/-! ## Claim theorems -/

namespace HelmPreview

/-- The sample record of the spec's Service scenario: one `spec.type`
change from `ClusterIP` to `LoadBalancer`. -/
def svcScenarioRecord : ChangeRecord :=
  ⟨"v1/Service/default/web", "Service", "web", "default", PStatus.changed,
   [⟨"spec.type", Val.str "ClusterIP", Val.str "LoadBalancer", "value_changed"⟩]⟩

/-- Generic helper: the length of a guarded `filterMap` is the length of
the corresponding `filter`. -/
theorem length_filterMap_guard {α β : Type} (p : α → Prop) [DecidablePred p]
    (g : α → β) (l : List α) :
    (l.filterMap (fun x => if p x then some (g x) else none)).length
      = (l.filter (fun x => decide (p x))).length := by
  induction l with
  | nil => rfl
  | cons x xs ih =>
    by_cases h : p x <;> simp [List.filterMap_cons, h, ih]

/-- C4: for kind exactly `Service`, the service-type rule emits exactly
one `service_type_change` annotation per field change at exactly
`spec.type` — danger precisely when moving from `ClusterIP` to
`NodePort`/`LoadBalancer`, warning otherwise — and nothing for any other
kind; the `ClusterIP → LoadBalancer` Service scenario yields exactly one
annotation overall (across all rules of `assess_risk`), with severity
danger and rule `service_type_change`. -/
theorem c4_service_type_rule :
    (∀ c : ChangeRecord, c.kind ≠ "Service" → check_service_type_change c = [])
    ∧ (∀ c : ChangeRecord, c.kind = "Service" →
        (check_service_type_change c).length
          = (c.changes.filter (fun fc => decide (fc.path = "spec.type"))).length)
    ∧ (∀ (c : ChangeRecord) (a : RiskAnnotation), a ∈ check_service_type_change c →
        a.rule = "service_type_change" ∧ a.path = "spec.type" ∧
        ∃ fc ∈ c.changes, fc.path = "spec.type" ∧
          a.level = (if pyEq fc.old_value (Val.str "ClusterIP")
              && (pyEq fc.new_value (Val.str "NodePort")
                || pyEq fc.new_value (Val.str "LoadBalancer"))
            then RiskLevel.danger else RiskLevel.warning))
    ∧ assess_risk [svcScenarioRecord]
        = [(svcScenarioRecord,
            [⟨RiskLevel.danger, "service_type_change",
              "Service type changed from ClusterIP to LoadBalancer", "spec.type"⟩])] := by
  refine ⟨?_, ?_, ?_, rfl⟩
  · intro c h
    simp [check_service_type_change, h]
  · intro c h
    simp only [check_service_type_change, if_pos h]
    exact length_filterMap_guard (fun fc => fc.path = "spec.type") _ c.changes
  · intro c a ha
    by_cases h : c.kind = "Service"
    · simp only [check_service_type_change, if_pos h, List.mem_filterMap] at ha
      obtain ⟨fc, hfc, heq⟩ := ha
      by_cases hp : fc.path = "spec.type"
      · rw [if_pos hp] at heq
        obtain rfl := Option.some_injective _ heq
        exact ⟨rfl, hp ▸ rfl, fc, hfc, hp, rfl⟩
      · rw [if_neg hp] at heq
        exact absurd heq (by simp)
    · simp [check_service_type_change, h] at ha

/-- The C10 exhibit: a Service record whose only change is at
`spec.clusterIPs` — a different field whose path merely extends the
configured prefix `spec.clusterIP` textually. -/
def clusterIPsRecord : ChangeRecord :=
  ⟨"v1/Service/default/web", "Service", "web", "default", PStatus.changed,
   [⟨"spec.clusterIPs", Val.str "10.0.0.1", Val.str "10.0.0.2", "value_changed"⟩]⟩

/-- C10: the immutable-field rule matches by raw string prefix, without a
segment boundary: an annotation exists exactly for a field change whose
path merely starts with a configured prefix of the lower-cased kind; in
particular a Service change at `spec.clusterIPs` is flagged as danger with
rule `immutable_field` because the path string starts with
`spec.clusterIP`. -/
theorem c10_immutable_prefix_no_boundary :
    (∀ (c : ChangeRecord) (a : RiskAnnotation),
      a ∈ check_immutable_fields c ↔
        ∃ fc ∈ c.changes, ∃ ip ∈ IMMUTABLE_FIELDS (pyLower c.kind),
          strStartsWith fc.path ip = true ∧
          a = ⟨RiskLevel.danger, "immutable_field",
            "Immutable field " ++ sQuote ++ fc.path ++ sQuote ++ " changed on "
              ++ c.kind ++ "/" ++ c.name, fc.path⟩)
    ∧ strStartsWith "spec.clusterIPs" "spec.clusterIP" = true
    ∧ check_immutable_fields clusterIPsRecord
        = [⟨RiskLevel.danger, "immutable_field",
            "Immutable field " ++ sQuote ++ "spec.clusterIPs" ++ sQuote
              ++ " changed on Service/web", "spec.clusterIPs"⟩] := by
  refine ⟨?_, rfl, rfl⟩
  intro c a
  simp only [check_immutable_fields, List.mem_flatMap, List.mem_filterMap]
  constructor
  · rintro ⟨fc, hfc, ip, hip, heq⟩
    by_cases hs : strStartsWith fc.path ip = true
    · rw [if_pos hs] at heq
      obtain rfl := Option.some_injective _ heq
      exact ⟨fc, hfc, ip, hip, hs, rfl⟩
    · rw [if_neg hs] at heq
      exact absurd heq (by simp)
  · rintro ⟨fc, hfc, ip, hip, hs, rfl⟩
    exact ⟨fc, hfc, ip, hip, by rw [if_pos hs]⟩

/-- The C9 exhibits: a PVC record with a change whose path contains
`storage` and `requests` in a non-canonical order, and a change at
`spec.storageClassNameX` (a strict extension of the exact danger path). -/
def pvcOddRecord : ChangeRecord :=
  ⟨"v1/PersistentVolumeClaim/default/p", "PersistentVolumeClaim", "p", "default",
   PStatus.changed,
   [⟨"requests.foo.storage", Val.str "10Gi", Val.str "20Gi", "value_changed"⟩,
    ⟨"spec.storageClassNameX", Val.str "a", Val.str "b", "value_changed"⟩]⟩

/-- The C9 danger exhibit: a PVC record changing exactly
`spec.storageClassName`. -/
def pvcClassRecord : ChangeRecord :=
  ⟨"v1/PersistentVolumeClaim/default/p", "PersistentVolumeClaim", "p", "default",
   PStatus.changed,
   [⟨"spec.storageClassName", Val.str "gp2", Val.str "gp3", "value_changed"⟩]⟩

/-- C9: the storage rule fires on any PVC field change whose path contains
`storage` and `requests` as substrings anywhere and in any order (warning,
rule `pvc_storage_change`), while the danger `pvc_storage_class_change`
annotation requires the path to be exactly `spec.storageClassName`; other
kinds get nothing.  Concretely, `requests.foo.storage` (not under
`spec.resources.requests.storage`) is flagged, `spec.storageClassNameX` is
not, and exactly `spec.storageClassName` draws the danger annotation. -/
theorem c9_pvc_storage_substring_rule :
    (∀ c : ChangeRecord, c.kind ≠ "PersistentVolumeClaim" → check_pvc_changes c = [])
    ∧ (∀ (c : ChangeRecord) (a : RiskAnnotation), c.kind = "PersistentVolumeClaim" →
        (a ∈ check_pvc_changes c ↔
          ∃ fc ∈ c.changes,
            ((strContainsSub fc.path "storage" && strContainsSub fc.path "requests") = true ∧
              a = ⟨RiskLevel.warning, "pvc_storage_change",
                "PVC storage request changed from " ++ pyStr fc.old_value ++ " to "
                  ++ pyStr fc.new_value, fc.path⟩)
            ∨ (fc.path = "spec.storageClassName" ∧
              a = ⟨RiskLevel.danger, "pvc_storage_class_change",
                "PVC storageClassName changed from " ++ pyStr fc.old_value ++ " to "
                  ++ pyStr fc.new_value, fc.path⟩)))
    ∧ check_pvc_changes pvcOddRecord
        = [⟨RiskLevel.warning, "pvc_storage_change",
            "PVC storage request changed from 10Gi to 20Gi", "requests.foo.storage"⟩]
    ∧ check_pvc_changes pvcClassRecord
        = [⟨RiskLevel.danger, "pvc_storage_class_change",
            "PVC storageClassName changed from gp2 to gp3", "spec.storageClassName"⟩] := by
  refine ⟨?_, ?_, rfl, rfl⟩
  · intro c h
    simp [check_pvc_changes, h]
  · intro c a h
    simp only [check_pvc_changes, if_pos h, List.mem_flatMap, List.mem_append]
    constructor
    · rintro ⟨fc, hfc, hmem⟩
      refine ⟨fc, hfc, ?_⟩
      rcases hmem with hw | hd
      · by_cases hc : (strContainsSub fc.path "storage" && strContainsSub fc.path "requests") = true
        · rw [if_pos hc] at hw
          simp only [List.mem_singleton] at hw
          exact Or.inl ⟨hc, hw⟩
        · rw [if_neg hc] at hw
          exact absurd hw (by simp)
      · by_cases hp : fc.path = "spec.storageClassName"
        · rw [if_pos hp] at hd
          simp only [List.mem_singleton] at hd
          exact Or.inr ⟨hp, hd⟩
        · rw [if_neg hp] at hd
          exact absurd hd (by simp)
    · rintro ⟨fc, hfc, hw | hd⟩
      · exact ⟨fc, hfc, Or.inl (by rw [if_pos hw.1]; simp [hw.2])⟩
      · exact ⟨fc, hfc, Or.inr (by rw [if_pos hd.1]; simp [hd.2])⟩

/-- C5: a removed pair produces (for every diff backend, show-all flag and
ignore list) a ChangeRecord with status removed and no field changes; the
deletion rule gives every removed record exactly one warning annotation
with rule `resource_deleted` and the empty path, and nothing otherwise;
and on any removed record with an empty change list the whole rule engine
attaches exactly that one annotation. -/
theorem c5_removed_resource_warning :
    (∀ (dd : Val → Val → List FieldChange) (r : Resource) (onew : Option Resource)
        (showAll : Bool) (ex : List String),
      compute_diff dd ⟨some r, onew, PStatus.removed⟩ showAll ex
        = some ⟨r.key, r.kind, r.name, r.namespc, PStatus.removed, []⟩)
    ∧ (∀ c : ChangeRecord,
        check_resource_deletion c
          = if c.status = PStatus.removed then
              [⟨RiskLevel.warning, "resource_deleted",
                c.kind ++ "/" ++ c.name ++ " will be removed", ""⟩]
            else [])
    ∧ (∀ (key kind name ns : String),
        assessRecordAnnotations ⟨key, kind, name, ns, PStatus.removed, []⟩
          = [⟨RiskLevel.warning, "resource_deleted",
              kind ++ "/" ++ name ++ " will be removed", ""⟩]) := by
  refine ⟨fun dd r onew showAll ex => rfl, fun c => rfl, ?_⟩
  intro key kind name ns
  simp only [assessRecordAnnotations, check_immutable_fields, check_service_type_change,
    check_pvc_changes, check_resource_deletion, check_crd_changes, check_rbac_escalation]
  split <;> split <;> split <;> split <;> simp_all

/-- C6: a string is semantically equal to a number exactly when it parses
as an integer equal to it or, failing integer parse, as a (finite decimal)
floating-point literal equal to it — stated for both numeric shapes — and
the three documented coercion cases hold:
`equal(\x7b"port": "80"\x7d, \x7b"port": 80\x7d)` is true,
`equal(\x7b"x": "true"\x7d, \x7b"x": True\x7d)` is true,
`equal(\x7b"x": "1"\x7d, \x7b"x": 2\x7d)` is false. -/
theorem c6_string_number_coercion :
    (∀ (s : String) (n : Int),
      is_semantically_equal (Val.str s) (Val.int n)
        = (match parseIntPy s with
           | some m => ((m : Rat) == (n : Rat))
           | none =>
             match parseFloatPy s with
             | some q => (q == (n : Rat))
             | none => false))
    ∧ (∀ (s : String) (x : Rat),
      is_semantically_equal (Val.str s) (Val.float x)
        = (match parseIntPy s with
           | some m => ((m : Rat) == x)
           | none =>
             match parseFloatPy s with
             | some q => (q == x)
             | none => false))
    ∧ is_semantically_equal (vmap [("port", Val.str "80")]) (vmap [("port", Val.int 80)]) = true
    ∧ is_semantically_equal (vmap [("x", Val.str "true")]) (vmap [("x", Val.bool true)]) = true
    ∧ is_semantically_equal (vmap [("x", Val.str "1")]) (vmap [("x", Val.int 2)]) = false := by
  refine ⟨?_, ?_, rfl, rfl, rfl⟩
  · intro s n
    show deepSemanticEqualF 2 (Val.str s) (Val.int n) = _
    simp only [deepSemanticEqualF]
    rw [show pyEq (Val.str s) (Val.int n) = false from rfl]
    simp only [Bool.false_eq_true, if_false]
    show (match coerceNumeric (Val.str s), some ((n : Int) : Rat) with
          | some x, some y => x == y
          | _, _ =>
            match coerceBool (Val.str s), coerceBool (Val.int n) with
            | some x, some y => x == y
            | _, _ => false) = _
    simp only [coerceNumeric]
    rcases h : parseIntPy s with _ | m
    · rcases hf : parseFloatPy s with _ | q
      · rcases hb : coerceBool (Val.str s) with _ | b <;> simp [coerceBool] at hb ⊢
      · simp
    · simp
  · intro s x
    show deepSemanticEqualF 2 (Val.str s) (Val.float x) = _
    simp only [deepSemanticEqualF]
    rw [show pyEq (Val.str s) (Val.float x) = false from rfl]
    simp only [Bool.false_eq_true, if_false]
    show (match coerceNumeric (Val.str s), some x with
          | some u, some y => u == y
          | _, _ =>
            match coerceBool (Val.str s), coerceBool (Val.float x) with
            | some u, some y => u == y
            | _, _ => false) = _
    simp only [coerceNumeric]
    rcases h : parseIntPy s with _ | m
    · rcases hf : parseFloatPy s with _ | q
      · rcases hb : coerceBool (Val.str s) with _ | b <;> simp [coerceBool] at hb ⊢
      · simp
    · simp

/-- The C1 scenario, old side: a ConfigMap body carrying
`metadata.resourceVersion` `"1"`. -/
def c1OldBody : Val :=
  vmap [("apiVersion", Val.str "v1"), ("kind", Val.str "ConfigMap"),
    ("metadata", vmap [("name", Val.str "a"), ("resourceVersion", Val.str "1")]),
    ("data", vmap [("k", Val.str "v")])]

/-- The C1 scenario, new side: the same document with reordered mapping
keys and `metadata.resourceVersion` `"2"`. -/
def c1NewBody : Val :=
  vmap [("kind", Val.str "ConfigMap"), ("apiVersion", Val.str "v1"),
    ("data", vmap [("k", Val.str "v")]),
    ("metadata", vmap [("resourceVersion", Val.str "2"), ("name", Val.str "a")])]

/-- The C1 scenario, old resource. -/
def c1OldResource : Resource := ⟨"v1", "ConfigMap", "default", "a", c1OldBody, ""⟩

/-- The C1 scenario, new resource. -/
def c1NewResource : Resource := ⟨"v1", "ConfigMap", "default", "a", c1NewBody, ""⟩

/-- C1 (amended): a changed pair whose bodies are semantically equal after
noise stripping and normalization is demoted to no-op — `compute_diff`
returns `none` for every diff backend and ignore list, and the pair is
excluded from `diff_all`; in the resourceVersion/key-ordering scenario
`diff_all` returns zero ChangeRecords, but the count reported by the CLI
counts only pairs whose raw bodies were equal before normalization
(`p.status == "unchanged"`), which is 0 here — not the total resource
count. -/
theorem c1_semantic_gate_and_unchanged_count :
    (∀ (dd : Val → Val → List FieldChange) (o n : Resource) (ex : List String),
      is_semantically_equal (normalize_body (strip_noise o.body ex))
          (normalize_body (strip_noise n.body ex)) = true →
      compute_diff dd ⟨some o, some n, PStatus.changed⟩ false ex = none)
    ∧ (∀ dd : Val → Val → List FieldChange,
        diff_all dd (pair_resources [c1OldResource] [c1NewResource]) false [] = [])
    ∧ total_unchanged (pair_resources [c1OldResource] [c1NewResource]) = 0 := by
  refine ⟨?_, fun dd => rfl, rfl⟩
  intro dd o n ex h
  simp [compute_diff, h]

/-- C1 witness: the gate theorem applied to the concrete scenario pair
(whose stripped, normalized bodies are semantically equal). -/
theorem c1_semantic_gate_witness :
    is_semantically_equal (normalize_body (strip_noise c1OldResource.body []))
        (normalize_body (strip_noise c1NewResource.body [])) = true
    ∧ compute_diff (fun _ _ => []) ⟨some c1OldResource, some c1NewResource, PStatus.changed⟩
        false [] = none :=
  ⟨rfl, c1_semantic_gate_and_unchanged_count.1 (fun _ _ => [])
    c1OldResource c1NewResource [] rfl⟩

/-- C1 counterexample: in the scenario the claim asserts the reported
unchanged count equals the total resource count (1); the code reports 0,
even though `diff_all` indeed returns zero ChangeRecords. -/
theorem c1_unchanged_count_counterexample :
    diff_all (fun _ _ => []) (pair_resources [c1OldResource] [c1NewResource]) false [] = []
    ∧ (pair_resources [c1OldResource] [c1NewResource]).length = 1
    ∧ total_unchanged (pair_resources [c1OldResource] [c1NewResource]) ≠ 1 :=
  ⟨rfl, rfl, by decide⟩

/-- Mapping test used by the C2 statements. -/
def Val.isMap : Val → Bool
  | Val.map _ => true
  | _ => false

/-- C2 counterexample: a successfully parsed mapping that carries
`apiVersion` but lacks `kind` — so it has at least one of the two fields —
is discarded by the parser, contradicting the claim that such a document
produces a Resource. -/
theorem c2_single_field_discarded_counterexample :
    parse_multi_doc "default"
        [DocResult.ok (vmap [("apiVersion", Val.str "v1"),
          ("metadata", vmap [("name", Val.str "x")])])] = []
    ∧ (vmap [("apiVersion", Val.str "v1"),
        ("metadata", vmap [("name", Val.str "x")])]).isMap = true :=
  ⟨rfl, rfl⟩

/-- C2 (amended): the parser discards a successfully parsed document iff
it is not a mapping or lacks the API-version field or lacks the kind
field; every parsed mapping carrying both fields (with string-typed
identity and metadata fields, per the dataclass annotations) contributes
exactly one Resource, in document order. -/
theorem c2_parser_requires_both_fields :
    (∀ (ns : String) (v : Val), v.isMap = false →
      parse_multi_doc ns [DocResult.ok v] = [])
    ∧ (∀ (ns : String) (kvs : ValMap),
        kvs.lookup "apiVersion" = none ∨ kvs.lookup "kind" = none →
        parse_multi_doc ns [DocResult.ok (Val.map kvs)] = [])
    ∧ (∀ (ns : String) (pre post : List DocResult) (kvs mkvs : ValMap)
          (avs kds ns2 nm : String),
        kvs.lookup "apiVersion" = some (Val.str avs) →
        kvs.lookup "kind" = some (Val.str kds) →
        (kvs.lookup "metadata").getD (Val.map ValMap.nil) = Val.map mkvs →
        (mkvs.lookup "namespace").getD (Val.str ns) = Val.str ns2 →
        (mkvs.lookup "name").getD (Val.str "") = Val.str nm →
        parse_multi_doc ns (pre ++ DocResult.ok (Val.map kvs) :: post)
          = parse_multi_doc ns pre
              ++ ⟨avs, kds, ns2, nm, Val.map kvs, ""⟩ :: parse_multi_doc ns post) := by
  refine ⟨?_, ?_, ?_⟩
  · intro ns v h
    cases v <;> simp_all [parse_multi_doc, docResource, Val.isMap]
  · intro ns kvs h
    rcases h with h | h <;> simp [parse_multi_doc, docResource, h]
  · intro ns pre post kvs mkvs avs kds ns2 nm h1 h2 h3 h4 h5
    simp only [parse_multi_doc, List.filterMap_append, List.filterMap_cons]
    rw [show docResource ns (Val.map kvs)
        = some ⟨avs, kds, ns2, nm, Val.map kvs, ""⟩ from ?_]
    rw [docResource.eq_def]
    dsimp only
    rw [h1, h2, h3]
    dsimp only
    rw [h4, h5]

/-- C2 witness: the production branch of the amended theorem at a concrete
two-field document. -/
theorem c2_parser_production_witness :
    (ValMap.ofList [("apiVersion", Val.str "v1"), ("kind", Val.str "ConfigMap"),
        ("metadata", vmap [("name", Val.str "x")])]).lookup "kind"
      = some (Val.str "ConfigMap")
    ∧ parse_multi_doc "default"
        ([] ++ DocResult.ok (Val.map (ValMap.ofList
          [("apiVersion", Val.str "v1"), ("kind", Val.str "ConfigMap"),
           ("metadata", vmap [("name", Val.str "x")])])) :: [])
        = [] ++ ⟨"v1", "ConfigMap", "default", "x",
            Val.map (ValMap.ofList
              [("apiVersion", Val.str "v1"), ("kind", Val.str "ConfigMap"),
               ("metadata", vmap [("name", Val.str "x")])]), ""⟩ :: [] :=
  ⟨rfl, c2_parser_requires_both_fields.2.2 "default" [] []
    (ValMap.ofList [("apiVersion", Val.str "v1"), ("kind", Val.str "ConfigMap"),
      ("metadata", vmap [("name", Val.str "x")])])
    (ValMap.ofList [("name", Val.str "x")])
    "v1" "ConfigMap" "default" "x" rfl rfl rfl rfl rfl⟩


theorem beqSymm {α : Type} [BEq α] [LawfulBEq α] (a b : α) : (a == b) = (b == a) :=
  Bool.beq_comm

theorem mem_foldlDedup (ks : List String) (acc : List String) (x : String) :
    x ∈ ks.foldl (fun acc k => if acc.contains k then acc else acc ++ [k]) acc ↔
      x ∈ acc ∨ x ∈ ks := by
  induction ks generalizing acc with
  | nil => simp
  | cons k ks ih =>
    simp only [List.foldl_cons]
    by_cases h : acc.contains k
    · rw [if_pos h, ih]
      have hk : k ∈ acc := List.elem_iff.mp h
      constructor
      · rintro (hx | hx)
        · exact Or.inl hx
        · exact Or.inr (List.mem_cons_of_mem _ hx)
      · rintro (hx | hx)
        · exact Or.inl hx
        · rcases List.mem_cons.mp hx with rfl | hx
          · exact Or.inl hk
          · exact Or.inr hx
    · rw [if_neg h, ih]
      simp only [List.mem_append, List.mem_singleton, List.mem_cons]
      tauto

theorem mem_dedupKeys (ks : List String) (x : String) :
    x ∈ dedupKeys ks ↔ x ∈ ks := by
  unfold dedupKeys
  rw [mem_foldlDedup]
  simp

theorem all_dedupKeys_append_comm (p : String → Bool) (xs ys : List String) :
    (dedupKeys (xs ++ ys)).all p = (dedupKeys (ys ++ xs)).all p := by
  apply Bool.coe_iff_coe.mp
  simp only [List.all_eq_true]
  constructor <;> intro h z hz <;> apply h <;>
    rw [mem_dedupKeys] at hz ⊢ <;>
    simp only [List.mem_append] at hz ⊢ <;> tauto

theorem pyEqF_symm : ∀ k : Nat,
    (∀ a b, pyEqF k a b = pyEqF k b a) ∧
    (∀ xs ys, pyEqListF k xs ys = pyEqListF k ys xs) := by
  intro k
  induction k with
  | zero => exact ⟨fun a b => rfl, fun xs ys => rfl⟩
  | succ k ih =>
    obtain ⟨ihV, ihL⟩ := ih
    constructor
    · intro a b
      cases a <;> cases b <;> simp only [pyEqF] <;>
        first
          | rfl
          | exact beqSymm _ _
          | exact ihL _ _
          | exact Bool.and_comm _ _
    · intro xs ys
      cases xs <;> cases ys <;> simp only [pyEqListF]
      rw [ihV, ihL]

theorem pyEq_symm (a b : Val) : pyEq a b = pyEq b a := by
  unfold pyEq
  rw [Nat.add_comm]
  exact (pyEqF_symm _).1 a b

theorem dseShape_symm (k : Nat)
    (ihV : ∀ a b, deepSemanticEqualF k a b = deepSemanticEqualF k b a)
    (ihL : ∀ xs ys, deepSemanticEqualListF k xs ys = deepSemanticEqualListF k ys xs)
    (a b : Val) :
    (match a, b with
     | Val.map ka, Val.map kb =>
       (dedupKeys (ka.keys ++ kb.keys)).all
         (fun key => deepSemanticEqualF k (ka.lookupD key) (kb.lookupD key))
     | Val.list xs, Val.list ys => deepSemanticEqualListF k xs ys
     | _, _ => false)
    = (match b, a with
       | Val.map kb, Val.map ka =>
         (dedupKeys (kb.keys ++ ka.keys)).all
           (fun key => deepSemanticEqualF k (kb.lookupD key) (ka.lookupD key))
       | Val.list ys, Val.list xs => deepSemanticEqualListF k ys xs
       | _, _ => false) := by
  cases a <;> cases b <;> try rfl
  case map.map ka kb =>
    have hfun : (fun key => deepSemanticEqualF k (ValMap.lookupD kb key) (ValMap.lookupD ka key))
        = (fun key => deepSemanticEqualF k (ValMap.lookupD ka key) (ValMap.lookupD kb key)) :=
      funext (fun key => ihV _ _)
    show _ = (dedupKeys (kb.keys ++ ka.keys)).all
      (fun key => deepSemanticEqualF k (kb.lookupD key) (ka.lookupD key))
    rw [hfun, all_dedupKeys_append_comm]
  case list.list xs ys => exact ihL xs ys

theorem dseBool_symm (k : Nat)
    (ihV : ∀ a b, deepSemanticEqualF k a b = deepSemanticEqualF k b a)
    (ihL : ∀ xs ys, deepSemanticEqualListF k xs ys = deepSemanticEqualListF k ys xs)
    (a b : Val) :
    (match coerceBool a, coerceBool b with
     | some x, some y => x == y
     | _, _ =>
       match a, b with
       | Val.map ka, Val.map kb =>
         (dedupKeys (ka.keys ++ kb.keys)).all
           (fun key => deepSemanticEqualF k (ka.lookupD key) (kb.lookupD key))
       | Val.list xs, Val.list ys => deepSemanticEqualListF k xs ys
       | _, _ => false)
    = (match coerceBool b, coerceBool a with
       | some x, some y => x == y
       | _, _ =>
         match b, a with
         | Val.map kb, Val.map ka =>
           (dedupKeys (kb.keys ++ ka.keys)).all
             (fun key => deepSemanticEqualF k (kb.lookupD key) (ka.lookupD key))
         | Val.list ys, Val.list xs => deepSemanticEqualListF k ys xs
         | _, _ => false) := by
  rcases coerceBool a with _ | u <;> rcases coerceBool b with _ | v <;> simp only []
  · exact dseShape_symm k ihV ihL a b
  · exact dseShape_symm k ihV ihL a b
  · exact dseShape_symm k ihV ihL a b
  · exact beqSymm u v

theorem dseF_symm : ∀ k : Nat,
    (∀ a b, deepSemanticEqualF k a b = deepSemanticEqualF k b a) ∧
    (∀ xs ys, deepSemanticEqualListF k xs ys = deepSemanticEqualListF k ys xs) := by
  intro k
  induction k with
  | zero => exact ⟨fun a b => rfl, fun xs ys => rfl⟩
  | succ k ih =>
    obtain ⟨ihV, ihL⟩ := ih
    constructor
    · intro a b
      simp only [deepSemanticEqualF]
      rw [show pyEq a b = pyEq b a from pyEq_symm a b]
      by_cases h : pyEq b a
      · rw [if_pos h, if_pos h]
      · rw [if_neg h, if_neg h]
        rcases coerceNumeric a with _ | x <;> rcases coerceNumeric b with _ | y <;>
          simp only []
        · exact dseBool_symm k ihV ihL a b
        · exact dseBool_symm k ihV ihL a b
        · exact dseBool_symm k ihV ihL a b
        · exact beqSymm x y
    · intro xs ys
      cases xs <;> cases ys <;> simp only [deepSemanticEqualListF]
      rw [ihV, ihL]

/-- C7: the semantic comparator is symmetric — for all values `a` and
`b`, `is_semantically_equal a b = is_semantically_equal b a`, through the
numeric-coercion, boolean-coercion, mapping-union and positional-list
branches alike. -/
theorem c7_semantic_equality_symmetric :
    ∀ a b : Val, is_semantically_equal a b = is_semantically_equal b a := by
  intro a b
  unfold is_semantically_equal
  rw [Nat.add_comm]
  exact (dseF_symm _).1 a b


theorem dropWhile_all_false {p : Char → Bool} :
    ∀ l : List Char, (∀ c ∈ l, p c = false) → l.dropWhile p = l
  | [], _ => rfl
  | c :: l, h => by
    rw [List.dropWhile_cons, h c (List.mem_cons_self c l)]
    simp [dropWhile_all_false l (fun d hd => h d (List.mem_cons_of_mem c hd))]

theorem stripQuotes_wrap (q1 q2 : Char) (hq1 : isQuoteChar q1 = true)
    (hq2 : isQuoteChar q2 = true) (ks : List Char) (hne : ks ≠ [])
    (hk : ∀ c ∈ ks, isQuoteChar c = false) :
    stripQuotes (q1 :: (ks ++ [q2])) = ks := by
  unfold stripQuotes
  rw [List.dropWhile_cons, hq1]
  simp only [if_true]
  rcases ks with _ | ⟨c, cds⟩
  · simp at hne
  · rw [List.cons_append, List.dropWhile_cons, hk c (List.mem_cons_self c cds)]
    simp only [Bool.false_eq_true, if_false, List.reverse_append, List.reverse_cons,
      List.reverse_nil, List.nil_append, List.append_assoc, List.singleton_append]
    rw [List.cons_append, List.dropWhile_cons, hq2]
    simp only [if_true]
    rw [dropWhile_all_false (cds.reverse ++ [c])
      (fun d hd => hk d (by
        rcases List.mem_append.mp hd with h | h
        · exact List.mem_cons_of_mem c (List.mem_reverse.mp h)
        · simp only [List.mem_singleton] at h
          exact h ▸ List.mem_cons_self c cds))]
    simp

theorem charNe_of_beq_false {c d : Char} (h : c ≠ d) : (c == d) = false := by
  simpa using h

theorem emitSeg_nil (acc : String) : emitSeg acc [] = acc ++ "[" ++ "]" := rfl

theorem emitSeg_quote (acc : String) (c : Char) (cs : List Char)
    (h : isQuoteChar c = true) :
    emitSeg acc (c :: cs)
      = (if acc == "" then String.mk (stripQuotes (c :: cs))
         else acc ++ "." ++ String.mk (stripQuotes (c :: cs))) := by
  simp [emitSeg, h]

theorem emitSeg_index (acc : String) (c : Char) (cs : List Char)
    (h : isQuoteChar c = false) :
    emitSeg acc (c :: cs) = acc ++ "[" ++ String.mk (c :: cs) ++ "]" := by
  simp [emitSeg, h]

theorem convertAux_open (cs : List Char) (acc : String) :
    convertAux ('[' :: cs) none acc = convertAux cs (some []) acc := by
  simp [convertAux]

theorem convertAux_step (c : Char) (cs buf : List Char) (acc : String)
    (h : (c == ']') = false) :
    convertAux (c :: cs) (some buf) acc = convertAux cs (some (buf ++ [c])) acc := by
  simp [convertAux, h]

theorem convertAux_close (cs buf : List Char) (acc : String) :
    convertAux (']' :: cs) (some buf) acc = convertAux cs none (emitSeg acc buf) := by
  simp [convertAux]

theorem convertAux_bracket (rest : List Char) (acc : String) :
    ∀ (cs buf : List Char), (∀ c ∈ cs, (c == ']') = false) →
    convertAux (cs ++ ']' :: rest) (some buf) acc
      = convertAux rest none (emitSeg acc (buf ++ cs)) := by
  intro cs
  induction cs with
  | nil =>
    intro buf _
    rw [List.nil_append, convertAux_close]
    simp
  | cons c cs ih =>
    intro buf h
    rw [List.cons_append, convertAux_step c _ buf acc (h c (List.mem_cons_self c cs)),
      ih (buf ++ [c]) (fun d hd => h d (List.mem_cons_of_mem c hd))]
    simp

theorem digit_ne_rbracket {c : Char} (h : c.isDigit = true) : (c == ']') = false :=
  charNe_of_beq_false (fun heq => absurd (heq ▸ h) (by decide))

theorem digit_not_quote {c : Char} (h : c.isDigit = true) : isQuoteChar c = false := by
  unfold isQuoteChar
  rw [charNe_of_beq_false (fun heq => absurd (heq ▸ h) (by decide) : c ≠ Char.ofNat 39),
    charNe_of_beq_false (fun heq => absurd (heq ▸ h) (by decide) : c ≠ Char.ofNat 34)]
  rfl

theorem convertAux_seg (seg : Seg) (h : SegWF seg) (rest : List Char) (acc : String) :
    convertAux ((renderSeg seg).data ++ rest) none acc
      = convertAux rest none (dotStep acc seg) := by
  cases seg with
  | key k =>
    obtain ⟨hne, hall⟩ := h
    have hall2 := List.all_eq_true.mp hall
    have hknq : ∀ c ∈ k.data, isQuoteChar c = false := fun c hc => by
      have := hall2 c hc
      simp only [Bool.and_eq_true, Bool.not_eq_true'] at this
      exact this.1
    have hknr : ∀ c ∈ k.data, (c == ']') = false := fun c hc => by
      have := hall2 c hc
      simp only [Bool.and_eq_true, Bool.not_eq_true'] at this
      exact charNe_of_beq_false (by
        intro heq
        rw [heq] at this
        exact absurd this.2 (by decide))
    have hq : isQuoteChar (Char.ofNat 39) = true := rfl
    have hkdne : k.data ≠ [] := fun hnil => hne (by cases k; simp_all)
    have hL : (renderSeg (Seg.key k)).data ++ rest
        = '[' :: ((Char.ofNat 39 :: (k.data ++ [Char.ofNat 39])) ++ (']' :: rest)) := by
      simp [renderSeg, sQuote]
    rw [hL, convertAux_open, convertAux_bracket rest acc _ [] ?_]
    · rw [List.nil_append, emitSeg_quote acc _ _ hq, stripQuotes_wrap _ _ hq hq k.data hkdne hknq]
      cases k
      simp [dotStep]
    · intro c hc
      rcases List.mem_cons.mp hc with rfl | hc2
      · decide
      · rcases List.mem_append.mp hc2 with h3 | h3
        · exact hknr c h3
        · simp only [List.mem_singleton] at h3
          subst h3
          decide
  | idx d =>
    have hall2 := List.all_eq_true.mp h
    have hL : (renderSeg (Seg.idx d)).data ++ rest = '[' :: (d.data ++ (']' :: rest)) := by
      simp [renderSeg]
    rw [hL, convertAux_open, convertAux_bracket rest acc d.data []
      (fun c hc => digit_ne_rbracket (hall2 c hc))]
    rw [List.nil_append]
    rcases hd : d.data with _ | ⟨c, cds⟩
    · rw [emitSeg_nil]
      have : d = "" := by cases d; simp_all
      simp [this, dotStep]
    · rw [emitSeg_index acc c cds (digit_not_quote (hall2 c (by rw [hd]; exact List.mem_cons_self c cds)))]
      rw [← hd]
      cases d
      simp [dotStep]

theorem convertAux_joinSegs :
    ∀ (segs : List Seg) (acc : String), (∀ s ∈ segs, SegWF s) →
    convertAux (joinSegs segs).data none acc = segs.foldl dotStep acc := by
  intro segs
  induction segs with
  | nil => intro acc _; rfl
  | cons s segs ih =>
    intro acc h
    have : (joinSegs (s :: segs)).data = (renderSeg s).data ++ (joinSegs segs).data := by
      simp [joinSegs]
    rw [this, convertAux_seg s (h s (List.mem_cons_self s segs)),
      ih _ (fun t ht => h t (List.mem_cons_of_mem s ht))]
    rfl

/-- The C8 sample path: key `image` of element 0 of the list at
`spec.template.spec.containers`. -/
def c8SampleSegs : List Seg :=
  [Seg.key "spec", Seg.key "template", Seg.key "spec",
   Seg.key "containers", Seg.idx "0", Seg.key "image"]

/-- C8: on every well-formed DeepDiff-style path the conversion produces
exactly the documented grammar — mapping keys joined with `.`, list
indices appended as `[i]` with no separating dot — and the sample path
renders as exactly `spec.template.spec.containers[0].image`. -/
theorem c8_path_grammar :
    (∀ segs : List Seg, (∀ s ∈ segs, SegWF s) →
      deepdiff_path_to_dot (buildDeepDiffPath segs) = dotRender segs)
    ∧ deepdiff_path_to_dot (buildDeepDiffPath c8SampleSegs)
      = "spec.template.spec.containers[0].image" := by
  constructor
  · intro segs h
    unfold deepdiff_path_to_dot buildDeepDiffPath
    have hdata : ("root" ++ joinSegs segs).data
        = 'r' :: 'o' :: 'o' :: 't' :: (joinSegs segs).data := by simp
    rw [hdata]
    rw [show removeFirstOcc "root".data ('r' :: 'o' :: 'o' :: 't' :: (joinSegs segs).data)
        = (joinSegs segs).data from by simp [removeFirstOcc, List.isPrefixOf]]
    exact convertAux_joinSegs segs "" h
  · rfl

/-- C8 witness: the grammar theorem applied to the concrete sample path,
its well-formedness discharged by computation. -/
theorem c8_path_grammar_witness :
    (∀ s ∈ c8SampleSegs, SegWF s)
    ∧ deepdiff_path_to_dot (buildDeepDiffPath c8SampleSegs) = dotRender c8SampleSegs := by
  have hwf : ∀ s ∈ c8SampleSegs, SegWF s := by
    intro s hs
    fin_cases hs <;> first | exact ⟨by decide, rfl⟩ | exact rfl
  exact ⟨hwf, c8_path_grammar.1 c8SampleSegs hwf⟩


theorem getLast?_cons' {α : Type} (a : α) (l : List α) :
    (a :: l).getLast? = (l.getLast? <|> some a) := by
  cases l with
  | nil => rfl
  | cons b l' =>
    rw [List.getLast?_cons_cons]
    rcases h : (b :: l').getLast? with _ | x
    · exact absurd h (by simp)
    · rfl

theorem dictGet?_overwrite (m : List (String × Resource)) (k0 : String) (r : Resource)
    (k : String) :
    dictGet? (m.map (fun p => if p.1 == k0 then (k0, r) else p)) k
      = if k = k0 then (if m.any (fun p => p.1 == k0) then some r else none)
        else dictGet? m k := by
  induction m with
  | nil => simp [dictGet?]
  | cons p m ih =>
    simp only [List.map_cons, List.any_cons]
    by_cases hp : p.1 == k0
    · simp only [hp, if_true, Bool.true_or]
      unfold dictGet?
      simp only [List.find?_cons]
      by_cases hk : k = k0
      · subst hk
        simp
      · have hk0k : (k0 == k) = false := by
          simpa using fun h => hk h.symm
        simp only [hk0k, Bool.false_eq_true, if_false, if_neg hk]
        have := ih
        rw [if_neg hk] at this
        unfold dictGet? at this
        rw [this]
        have hpk : (p.1 == k) = false := by
          have h1 := beq_iff_eq.mp hp
          rw [h1]
          exact hk0k
        simp [hpk]
    · simp only [hp, Bool.false_eq_true, if_false, Bool.false_or]
      unfold dictGet?
      simp only [List.find?_cons]
      by_cases hpk : p.1 == k
      · have hkk0 : ¬ k = k0 := by
          intro h
          rw [beq_iff_eq.mp hpk, h] at hp
          simp at hp
        simp [hpk, if_neg hkk0]
      · simp only [hpk, Bool.false_eq_true, if_false]
        have := ih
        unfold dictGet? at this
        rw [this]

theorem dictGet?_append_single (m : List (String × Resource)) (k0 : String)
    (r : Resource) (k : String) :
    dictGet? (m ++ [(k0, r)]) k
      = (dictGet? m k <|> (if k = k0 then some r else none)) := by
  unfold dictGet?
  rw [List.find?_append]
  by_cases hk : k = k0
  · subst hk
    have hfind : List.find? (fun p => p.1 == k) [(k, r)] = some (k, r) := by
      simp [List.find?_cons]
    rw [hfind, if_pos rfl]
    rcases h : m.find? (fun p => p.1 == k) with _ | p <;> simp [h, Option.or]
  · have hfind : List.find? (fun p => p.1 == k) [(k0, r)] = none := by
      simp only [List.find?_cons]
      have : (k0 == k) = false := by simpa using fun h => hk h.symm
      simp [this]
    rw [hfind, if_neg hk]
    rcases h : m.find? (fun p => p.1 == k) with _ | p <;> simp [h, Option.or]

theorem dictGet?_insert' (m : List (String × Resource)) (k0 : String) (r : Resource)
    (k : String) :
    dictGet? (dictInsert m k0 r) k = if k = k0 then some r else dictGet? m k := by
  unfold dictInsert
  by_cases hany : m.any (fun p => p.1 == k0)
  · rw [if_pos hany, dictGet?_overwrite, if_pos hany]
  · rw [if_neg hany, dictGet?_append_single]
    by_cases hk : k = k0
    · subst hk
      have : dictGet? m k = none := by
        unfold dictGet?
        rw [List.find?_eq_none.mpr]
        · rfl
        · intro p hp
          intro hpk
          exact hany (List.any_eq_true.mpr ⟨p, hp, hpk⟩)
      simp [this]
    · simp [hk]

theorem foldl_dictInsert_get (rs : List Resource) :
    ∀ (m : List (String × Resource)) (k : String),
    dictGet? (rs.foldl (fun m r => dictInsert m r.key r) m) k
      = ((rs.filter (fun r => r.key == k)).getLast? <|> dictGet? m k) := by
  induction rs with
  | nil => intro m k; simp
  | cons r rs ih =>
    intro m k
    simp only [List.foldl_cons, List.filter_cons]
    by_cases hk : r.key == k
    · simp only [hk, if_true]
      rw [getLast?_cons', ih, dictGet?_insert', if_pos (beq_iff_eq.mp hk).symm]
      rcases h : (rs.filter (fun r => r.key == k)).getLast? with _ | x <;> simp [h]
    · simp only [hk, Bool.false_eq_true, if_false]
      rw [ih, dictGet?_insert',
        if_neg (fun h => by rw [h] at hk; simp at hk)]

theorem buildMap_get (rs : List Resource) (k : String) :
    dictGet? (buildMap rs) k = (rs.filter (fun r => r.key == k)).getLast? := by
  unfold buildMap
  rw [foldl_dictInsert_get]
  rcases h : (rs.filter (fun r => r.key == k)).getLast? with _ | x <;> simp [dictGet?]

theorem any_key_eq_contains (m : List (String × Resource)) (k0 : String) :
    m.any (fun p => p.1 == k0) = (dictKeys m).contains k0 := by
  apply Bool.coe_iff_coe.mp
  rw [List.any_eq_true]
  constructor
  · rintro ⟨p, hp, hpk⟩
    apply List.elem_iff.mpr
    rw [← beq_iff_eq.mp hpk]
    exact List.mem_map_of_mem Prod.fst hp
  · intro h
    rcases List.mem_map.mp (List.elem_iff.mp h) with ⟨p, hp, hpk⟩
    exact ⟨p, hp, beq_iff_eq.mpr hpk⟩

theorem dictKeys_insert (m : List (String × Resource)) (k0 : String) (r : Resource) :
    dictKeys (dictInsert m k0 r)
      = if (dictKeys m).contains k0 then dictKeys m else dictKeys m ++ [k0] := by
  unfold dictInsert
  rw [any_key_eq_contains]
  by_cases h : (dictKeys m).contains k0
  · rw [if_pos h, if_pos h]
    unfold dictKeys
    rw [List.map_map]
    have : (Prod.fst ∘ fun p : String × Resource => if p.1 == k0 then (k0, r) else p)
        = Prod.fst := by
      funext p
      by_cases hp : p.1 = k0
      · simp [hp]
      · simp [hp]
    rw [this]
  · rw [if_neg h, if_neg h]
    unfold dictKeys
    simp

theorem foldl_dictInsert_keys (rs : List Resource) :
    ∀ m : List (String × Resource),
    dictKeys (rs.foldl (fun m r => dictInsert m r.key r) m)
      = (rs.map Resource.key).foldl
          (fun acc k => if acc.contains k then acc else acc ++ [k]) (dictKeys m) := by
  induction rs with
  | nil => intro m; rfl
  | cons r rs ih =>
    intro m
    simp only [List.foldl_cons, List.map_cons]
    rw [ih, dictKeys_insert]

theorem buildMap_keys (rs : List Resource) :
    dictKeys (buildMap rs) = dedupKeys (rs.map Resource.key) := by
  unfold buildMap dedupKeys
  rw [foldl_dictInsert_keys]
  rfl

theorem contains_append (l1 l2 : List String) (a : String) :
    (l1 ++ l2).contains a = (l1.contains a || l2.contains a) := by
  apply Bool.coe_iff_coe.mp
  rw [Bool.or_eq_true]
  constructor
  · intro h
    rcases List.mem_append.mp (List.elem_iff.mp h) with h2 | h2
    · exact Or.inl (List.elem_iff.mpr h2)
    · exact Or.inr (List.elem_iff.mpr h2)
  · intro h
    apply List.elem_iff.mpr
    rcases h with h2 | h2
    · exact List.mem_append.mpr (Or.inl (List.elem_iff.mp h2))
    · exact List.mem_append.mpr (Or.inr (List.elem_iff.mp h2))

theorem not_contains_and (acc : List String) (k a : String)
    (hc : acc.contains k = true) :
    (!(acc.contains a) && !([k].contains a)) = (!(acc.contains a)) := by
  by_cases ha : acc.contains a = true
  · rw [ha]
    rfl
  · have hak : ([k].contains a) = false := by
      apply Bool.eq_false_iff.mpr
      intro h2
      have h3 := List.elem_iff.mp h2
      simp only [List.mem_singleton] at h3
      subst h3
      exact ha hc
    rw [hak]
    simp

theorem foldlDedup_acc (ks : List String) :
    ∀ acc : List String,
    ks.foldl (fun acc k => if acc.contains k then acc else acc ++ [k]) acc
      = acc ++ (dedupKeys ks).filter (fun k => !(acc.contains k)) := by
  induction ks with
  | nil => intro acc; simp [dedupKeys]
  | cons k ks ih =>
    intro acc
    have hded : dedupKeys (k :: ks)
        = [k] ++ (dedupKeys ks).filter (fun x => !([k].contains x)) := by
      show List.foldl _ [k] ks = _
      exact ih [k]
    rw [List.foldl_cons, hded]
    by_cases hc : acc.contains k = true
    · rw [if_pos hc, ih acc]
      congr 1
      rw [List.filter_append]
      have hkf : (!(acc.contains k)) = false := by rw [hc]; rfl
      have h1 : List.filter (fun x => !(acc.contains x)) [k] = [] := by
        rw [List.filter_cons, hkf]
        rfl
      rw [h1, List.nil_append, List.filter_filter]
      apply Eq.symm
      apply List.filter_congr
      intro a _
      exact not_contains_and acc k a hc
    · rw [if_neg hc, ih (acc ++ [k]), List.append_assoc]
      congr 1
      rw [List.filter_append]
      have hkt : (!(acc.contains k)) = true := by
        rw [Bool.eq_false_iff.mpr hc]
        rfl
      have h1 : List.filter (fun x => !(acc.contains x)) [k] = [k] := by
        rw [List.filter_cons, hkt]
        rfl
      rw [h1, List.filter_filter]
      congr 1
      apply List.filter_congr
      intro a _
      rw [contains_append, Bool.not_or]

theorem dedup_append (xs ys : List String) :
    dedupKeys (xs ++ ys)
      = dedupKeys xs ++ (dedupKeys ys).filter (fun k => !(xs.contains k)) := by
  show (xs ++ ys).foldl _ [] = _
  rw [List.foldl_append, foldlDedup_acc ys]
  show dedupKeys xs ++ (dedupKeys ys).filter (fun k => !((dedupKeys xs).contains k)) = _
  congr 1
  apply List.filter_congr
  intro a _
  have h : (dedupKeys xs).contains a = xs.contains a := by
    apply Bool.coe_iff_coe.mp
    constructor
    · intro h
      exact List.elem_iff.mpr ((mem_dedupKeys xs a).mp (List.elem_iff.mp h))
    · intro h
      exact List.elem_iff.mpr ((mem_dedupKeys xs a).mpr (List.elem_iff.mp h))
  rw [h]

theorem nodup_foldlDedup (ks : List String) :
    ∀ acc : List String, acc.Nodup →
    (ks.foldl (fun acc k => if acc.contains k then acc else acc ++ [k]) acc).Nodup := by
  induction ks with
  | nil => intro acc h; exact h
  | cons k ks ih =>
    intro acc h
    rw [List.foldl_cons]
    by_cases hc : acc.contains k = true
    · rw [if_pos hc]; exact ih acc h
    · rw [if_neg hc]
      apply ih
      rw [List.nodup_append]
      refine ⟨h, List.nodup_singleton k, ?_⟩
      intro a ha hak
      simp only [List.mem_singleton] at hak
      subst hak
      exact hc (List.elem_iff.mpr ha)

theorem nodup_dedupKeys (ks : List String) : (dedupKeys ks).Nodup :=
  nodup_foldlDedup ks [] List.nodup_nil

theorem contains_dedupKeys (ks : List String) (a : String) :
    (dedupKeys ks).contains a = ks.contains a := by
  apply Bool.coe_iff_coe.mp
  constructor
  · intro h
    exact List.elem_iff.mpr ((mem_dedupKeys ks a).mp (List.elem_iff.mp h))
  · intro h
    exact List.elem_iff.mpr ((mem_dedupKeys ks a).mpr (List.elem_iff.mp h))

theorem dedupKeys_cons (k : String) (ks : List String) :
    dedupKeys (k :: ks) = [k] ++ (dedupKeys ks).filter (fun x => !([k].contains x)) := by
  show List.foldl _ [k] ks = _
  exact foldlDedup_acc ks [k]

theorem dedupKeys_of_nodup : ∀ l : List String, l.Nodup → dedupKeys l = l := by
  intro l
  induction l with
  | nil => intro _; rfl
  | cons k ks ih =>
    intro h
    rw [dedupKeys_cons, ih (List.Nodup.of_cons h), List.singleton_append]
    congr 1
    apply List.filter_eq_self.mpr
    intro a ha
    have hak : a ≠ k := by
      intro heq
      subst heq
      exact (List.nodup_cons.mp h).1 ha
    have h2 : ([k].contains a) = false := by
      apply Bool.eq_false_iff.mpr
      intro h2
      have h3 := List.elem_iff.mp h2
      simp only [List.mem_singleton] at h3
      exact hak h3
    rw [h2]
    rfl

theorem dedupKeys_idem (l : List String) : dedupKeys (dedupKeys l) = dedupKeys l :=
  dedupKeys_of_nodup (dedupKeys l) (nodup_dedupKeys l)

theorem dedup_dedup_append (a b : List String) :
    dedupKeys (dedupKeys a ++ dedupKeys b) = dedupKeys (a ++ b) := by
  rw [dedup_append, dedup_append, dedupKeys_idem, dedupKeys_idem]
  congr 1
  apply List.filter_congr
  intro x _
  rw [contains_dedupKeys]

theorem buildMap_get_none_iff (rs : List Resource) (k : String) :
    dictGet? (buildMap rs) k = none ↔ ¬ k ∈ rs.map Resource.key := by
  rw [buildMap_get]
  constructor
  · intro h hmem
    rcases List.mem_map.mp hmem with ⟨r, hr, hkey⟩
    have hmemf : r ∈ rs.filter (fun r => r.key == k) :=
      List.mem_filter.mpr ⟨hr, beq_iff_eq.mpr hkey⟩
    have := List.getLast?_eq_none_iff.mp h
    rw [this] at hmemf
    exact absurd hmemf (List.not_mem_nil r)
  · intro h
    rw [List.filter_eq_nil_iff.mpr]
    · rfl
    · intro r hr hbeq
      exact h (List.mem_map.mpr ⟨r, hr, beq_iff_eq.mp hbeq⟩)

theorem buildMap_get_some_key (rs : List Resource) (k : String) (r : Resource)
    (h : dictGet? (buildMap rs) k = some r) : r.key = k ∧ r ∈ rs := by
  rw [buildMap_get] at h
  have hmem := List.mem_of_mem_getLast? h
  have := List.mem_filter.mp hmem
  exact ⟨beq_iff_eq.mp this.2, this.1⟩

/-- C3: `pair_resources` returns exactly one pair per identity key in the
union of the two key sets — old-side first-seen keys first, then new-only
keys, each key exactly once — with the last occurrence winning on
duplicate keys within a side, and the status cascade removed / added /
unchanged (bodies Python-`==` pre-normalization) / changed. -/
theorem c3_pair_resources_pairing (old new : List Resource) :
    ((pair_resources old new).map ResourcePair.rkey
        = dedupKeys (old.map Resource.key ++ new.map Resource.key))
    ∧ (dedupKeys (old.map Resource.key ++ new.map Resource.key)
        = dedupKeys (old.map Resource.key)
          ++ (dedupKeys (new.map Resource.key)).filter
              (fun k => !((old.map Resource.key).contains k)))
    ∧ ((pair_resources old new).map ResourcePair.rkey).Nodup
    ∧ (∀ k : String, k ∈ (pair_resources old new).map ResourcePair.rkey ↔
          k ∈ old.map Resource.key ∨ k ∈ new.map Resource.key)
    ∧ (∀ p ∈ pair_resources old new,
        p.old = (old.filter (fun r => r.key == p.rkey)).getLast?
        ∧ p.new = (new.filter (fun r => r.key == p.rkey)).getLast?
        ∧ ¬ (p.old = none ∧ p.new = none)
        ∧ (p.old = none → p.status = PStatus.added)
        ∧ (p.old ≠ none → p.new = none → p.status = PStatus.removed)
        ∧ (∀ ro rn, p.old = some ro → p.new = some rn →
            p.status = if pyEq ro.body rn.body then PStatus.unchanged
              else PStatus.changed)) := by
  have hEq : pair_resources old new
      = (dedupKeys (dictKeys (buildMap old) ++ dictKeys (buildMap new))).map
          (fun k => ⟨dictGet? (buildMap old) k, dictGet? (buildMap new) k,
            pairStatus (dictGet? (buildMap old) k) (dictGet? (buildMap new) k)⟩) := rfl
  have hKeysEq : dedupKeys (dictKeys (buildMap old) ++ dictKeys (buildMap new))
      = dedupKeys (old.map Resource.key ++ new.map Resource.key) := by
    rw [buildMap_keys, buildMap_keys, dedup_dedup_append]
  have hAllMem : ∀ k, k ∈ dedupKeys (dictKeys (buildMap old) ++ dictKeys (buildMap new)) ↔
      (k ∈ old.map Resource.key ∨ k ∈ new.map Resource.key) := by
    intro k
    rw [hKeysEq, mem_dedupKeys, List.mem_append]
  have hrkey : ∀ k, k ∈ dedupKeys (dictKeys (buildMap old) ++ dictKeys (buildMap new)) →
      ResourcePair.rkey ⟨dictGet? (buildMap old) k, dictGet? (buildMap new) k,
        pairStatus (dictGet? (buildMap old) k) (dictGet? (buildMap new) k)⟩ = k := by
    intro k hk
    rcases hO : dictGet? (buildMap old) k with _ | r
    · rcases hN : dictGet? (buildMap new) k with _ | r
      · exfalso
        rcases (hAllMem k).mp hk with hmem | hmem
        · exact (buildMap_get_none_iff old k).mp hO hmem
        · exact (buildMap_get_none_iff new k).mp hN hmem
      · exact (buildMap_get_some_key new k r hN).1
    · exact (buildMap_get_some_key old k r hO).1
  have hmap1 : (pair_resources old new).map ResourcePair.rkey
      = dedupKeys (old.map Resource.key ++ new.map Resource.key) := by
    rw [hEq, List.map_map, ← hKeysEq]
    have : (dedupKeys (dictKeys (buildMap old) ++ dictKeys (buildMap new))).map
        (ResourcePair.rkey ∘ fun k =>
          (⟨dictGet? (buildMap old) k, dictGet? (buildMap new) k,
            pairStatus (dictGet? (buildMap old) k) (dictGet? (buildMap new) k)⟩ : ResourcePair))
        = (dedupKeys (dictKeys (buildMap old) ++ dictKeys (buildMap new))).map id := by
      apply List.map_eq_map_iff.mpr
      intro k hk
      exact hrkey k hk
    rw [this, List.map_id]
  refine ⟨hmap1, dedup_append _ _, ?_, ?_, ?_⟩
  · rw [hmap1]
    exact nodup_dedupKeys _
  · intro k
    rw [hmap1, mem_dedupKeys, List.mem_append]
  · intro p hp
    rw [hEq] at hp
    rcases List.mem_map.mp hp with ⟨k, hk, rfl⟩
    have hk2 := hrkey k hk
    refine ⟨?_, ?_, ?_, ?_, ?_, ?_⟩
    · show dictGet? (buildMap old) k = _
      rw [hk2, buildMap_get]
    · show dictGet? (buildMap new) k = _
      rw [hk2, buildMap_get]
    · rintro ⟨hO, hN⟩
      replace hO : dictGet? (buildMap old) k = none := hO
      replace hN : dictGet? (buildMap new) k = none := hN
      rcases (hAllMem k).mp hk with hmem | hmem
      · exact (buildMap_get_none_iff old k).mp hO hmem
      · exact (buildMap_get_none_iff new k).mp hN hmem
    · intro hO
      replace hO : dictGet? (buildMap old) k = none := hO
      show pairStatus (dictGet? (buildMap old) k) (dictGet? (buildMap new) k)
        = PStatus.added
      rw [hO]
      rfl
    · intro hO hN
      replace hN : dictGet? (buildMap new) k = none := hN
      show pairStatus (dictGet? (buildMap old) k) (dictGet? (buildMap new) k)
        = PStatus.removed
      rcases hO2 : dictGet? (buildMap old) k with _ | r
      · exact absurd hO2 hO
      · rw [hN]
        rfl
    · intro ro rn h1 h2
      replace h1 : dictGet? (buildMap old) k = some ro := h1
      replace h2 : dictGet? (buildMap new) k = some rn := h2
      show pairStatus (dictGet? (buildMap old) k) (dictGet? (buildMap new) k) = _
      rw [h1, h2]
      rfl

/-- First C3 witness resource (duplicate key, earlier occurrence). -/
def c3wOld1 : Resource := ⟨"v1", "ConfigMap", "default", "a", vmap [("v", Val.int 1)], ""⟩

/-- Second C3 witness resource (duplicate key, last occurrence — wins). -/
def c3wOld2 : Resource := ⟨"v1", "ConfigMap", "default", "a", vmap [("v", Val.int 2)], ""⟩

/-- The single pair produced by the C3 witness scenario. -/
def c3wPair : ResourcePair := ⟨some c3wOld2, none, PStatus.removed⟩

/-- C3 witness: the pairing theorem applied to a concrete old snapshot
with a duplicated key and an empty new snapshot — the last occurrence
wins and the pair is removed. -/
theorem c3_pair_resources_pairing_witness :
    c3wPair ∈ pair_resources [c3wOld1, c3wOld2] []
    ∧ c3wPair.old = ([c3wOld1, c3wOld2].filter (fun r => r.key == c3wPair.rkey)).getLast?
    ∧ c3wPair.new = (([] : List Resource).filter (fun r => r.key == c3wPair.rkey)).getLast?
    ∧ c3wPair.status = PStatus.removed := by
  have hmem : c3wPair ∈ pair_resources [c3wOld1, c3wOld2] [] := by
    rw [show pair_resources [c3wOld1, c3wOld2] [] = [c3wPair] from rfl]
    exact List.mem_singleton.mpr rfl
  have h := (c3_pair_resources_pairing [c3wOld1, c3wOld2] []).2.2.2.2 c3wPair hmem
  refine ⟨hmem, h.1, h.2.1, h.2.2.2.2.1 (fun hno => ?_) rfl⟩
  simp [c3wPair] at hno


/-- The warning annotation produced for the first change of
`pvcOddRecord`. -/
def c9wAnn : RiskAnnotation :=
  ⟨RiskLevel.warning, "pvc_storage_change",
   "PVC storage request changed from 10Gi to 20Gi", "requests.foo.storage"⟩

/-- C4 witness: the service-type-rule theorem applied at concrete records,
discharging its kind hypotheses by computation. -/
theorem c4_service_type_rule_witness :
    ("ConfigMap" : String) ≠ "Service"
    ∧ check_service_type_change
        (⟨"v1/ConfigMap/d/n", "ConfigMap", "n", "d", PStatus.changed, []⟩ : ChangeRecord) = []
    ∧ svcScenarioRecord.kind = "Service"
    ∧ (check_service_type_change svcScenarioRecord).length
        = (svcScenarioRecord.changes.filter (fun fc => decide (fc.path = "spec.type"))).length :=
  ⟨by decide,
   c4_service_type_rule.1 ⟨"v1/ConfigMap/d/n", "ConfigMap", "n", "d", PStatus.changed, []⟩
     (by decide),
   rfl,
   c4_service_type_rule.2.1 svcScenarioRecord rfl⟩

/-- C9 witness: the storage-rule theorem applied at concrete records,
discharging its kind hypotheses by computation. -/
theorem c9_pvc_rule_witness :
    ("Service" : String) ≠ "PersistentVolumeClaim"
    ∧ check_pvc_changes
        (⟨"v1/Service/d/n", "Service", "n", "d", PStatus.changed, []⟩ : ChangeRecord) = []
    ∧ pvcOddRecord.kind = "PersistentVolumeClaim"
    ∧ c9wAnn ∈ check_pvc_changes pvcOddRecord :=
  ⟨by decide,
   c9_pvc_storage_substring_rule.1 ⟨"v1/Service/d/n", "Service", "n", "d", PStatus.changed, []⟩
     (by decide),
   rfl,
   (c9_pvc_storage_substring_rule.2.1 pvcOddRecord c9wAnn rfl).mpr
     ⟨⟨"requests.foo.storage", Val.str "10Gi", Val.str "20Gi", "value_changed"⟩,
      List.mem_cons_self _ _, Or.inl ⟨rfl, rfl⟩⟩⟩

end HelmPreview
